import Mathlib

/-!
Verification of the BibTeX-to-tree conversion core (`scripts/bib_to_tree.py`).

Strings are modelled as `List Char`.  Python functions that can raise are
modelled with `Except`/`Option`; everything else is a total function.
The model restricts Python's unicode-aware primitives (`str.split()`,
`str.strip()`, `str.isdigit()`, `str.lower()`, `int()`) to their ASCII
behaviour: the whitespace set is the six ASCII whitespace characters,
digits are `0`-`9`, and `int()` accepts an optional sign followed by one
or more digits (no underscores).
-/

namespace BibToTree

abbrev Str := List Char

/-- ASCII whitespace, the characters `str.strip()` / `str.split()` treat as
space: `' '`, `\t`, `\n`, `\r`, `\x0b` (vertical tab), `\x0c` (form feed). -/
def isSpace (c : Char) : Bool :=
  c = ' ' || c = '\t' || c = '\n' || c = '\r' || c = '\x0b' || c = '\x0c'

/-- ASCII lower-casing of a single character, modelling `str.lower()`;
65 and 90 are the code points of `A` and `Z`. -/
def toLowerCh (c : Char) : Char :=
  if 65 ≤ c.toNat && c.toNat ≤ 90 then Char.ofNat (c.toNat + 32) else c

/-- `value.strip()`: drop leading and trailing whitespace. -/
def pyStrip (l : Str) : Str :=
  ((l.dropWhile isSpace).reverse.dropWhile isSpace).reverse

theorem dropWhile_len_le (p : Char → Bool) (l : Str) :
    (l.dropWhile p).length ≤ l.length := by
  induction l with
  | nil => simp
  | cons a t ih =>
    by_cases h : p a
    · simp only [List.dropWhile, h, List.length_cons]
      omega
    · simp [List.dropWhile, h]

theorem pyStrip_len_le (l : Str) : (pyStrip l).length ≤ l.length := by
  unfold pyStrip
  have h1 := dropWhile_len_le isSpace l
  have h2 := dropWhile_len_le isSpace (l.dropWhile isSpace).reverse
  simp only [List.length_reverse] at *
  omega

/-- The `while` loop of `_strip_braces`: while the value starts with `{`,
ends with `}` and has more than one character, remove the outer pair and
strip whitespace again. -/
def stripBracesLoop (l : Str) : Str :=
  if l.head? = some '\x7b' ∧ l.getLast? = some '\x7d' ∧ 1 < l.length then
    stripBracesLoop (pyStrip ((l.drop 1).dropLast))
  else l
termination_by l.length
decreasing_by
  have h1 := pyStrip_len_le ((l.drop 1).dropLast)
  simp only [List.length_dropLast, List.length_drop] at h1
  omega

/-- `_strip_braces`: strip whitespace, then repeatedly remove fully
enclosing brace pairs. -/
def stripBraces (l : Str) : Str :=
  stripBracesLoop (pyStrip l)

/-- `str.split()` with no separator: split on runs of whitespace, dropping
leading/trailing whitespace and empty fragments. -/
def pySplit (l : Str) : List Str :=
  match l with
  | [] => []
  | c :: rest =>
    if isSpace c then pySplit rest
    else (c :: rest.takeWhile (fun d => !isSpace d)) ::
         pySplit (rest.dropWhile (fun d => !isSpace d))
termination_by l.length
decreasing_by
  · simp
  · simp only [List.length_cons]
    have := dropWhile_len_le (fun d => !isSpace d) rest
    omega

/-- `" ".join(value.replace("\n", " ").split())`: collapse every whitespace
run to a single space and trim the ends. -/
def flattenWs (l : Str) : Str :=
  List.intercalate [' '] (pySplit (l.map (fun c => if c = '\n' then ' ' else c)))

/-- `_clean_whitespace`: empty for absent/empty input, otherwise collapse
whitespace and strip enclosing braces. -/
def cleanWhitespace (v : Option Str) : Str :=
  match v with
  | none => []
  | some s => if s = [] then [] else stripBraces (flattenWs s)

/-- The literal separator `" and "` used by `_format_authors`. -/
def sepAnd : Str := " and ".toList

/-- `raw.split(" and ")`: split on each non-overlapping, leftmost
occurrence of the separator, keeping empty fragments. -/
def splitAnd (l : Str) : List Str :=
  match l with
  | [] => [[]]
  | c :: rest =>
    if sepAnd.isPrefixOf (c :: rest) then
      [] :: splitAnd ((c :: rest).drop sepAnd.length)
    else
      match splitAnd rest with
      | [] => [[c]]
      | w :: ws => (c :: w) :: ws
termination_by l.length
decreasing_by
  · have h5 : sepAnd.length = 5 := rfl
    simp only [List.length_drop, List.length_cons, h5]
    omega
  · simp

/-- `_format_authors`: clean, split on `" and "`, strip each part, drop
empty parts, join with `", "`; `None` if nothing remains. -/
def formatAuthors (v : Option Str) : Option Str :=
  let raw := cleanWhitespace v
  if raw = [] then none
  else
    let authors := ((splitAnd raw).map pyStrip).filter (fun p => p ≠ [])
    if authors = [] then none
    else some (List.intercalate (", ".toList) authors)

/-- Characters allowed by the slug alphabet `[a-z0-9]`; 97-122 are the
code points of `a`-`z` and 48-57 those of `0`-`9`. -/
def isLowerAlnum (c : Char) : Bool :=
  (97 ≤ c.toNat && c.toNat ≤ 122) || (48 ≤ c.toNat && c.toNat ≤ 57)

/-- `re.sub(r"[^a-z0-9]+", "-", name)`: replace each maximal run of
characters outside `[a-z0-9]` with a single hyphen. -/
def subNonAlnum : Str → Str
  | [] => []
  | [c] => if isLowerAlnum c then [c] else ['-']
  | a :: b :: r =>
    if isLowerAlnum a then a :: subNonAlnum (b :: r)
    else if isLowerAlnum b then '-' :: subNonAlnum (b :: r)
    else subNonAlnum (b :: r)

/-- `re.sub(r"-+", "-", name)`: collapse runs of hyphens to one hyphen. -/
def collapseDashes : Str → Str
  | [] => []
  | [c] => [c]
  | a :: b :: r =>
    if a = '-' && b = '-' then collapseDashes (b :: r)
    else a :: collapseDashes (b :: r)

/-- `name.strip("-")`: drop leading and trailing hyphens. -/
def stripDashes (l : Str) : Str :=
  ((l.dropWhile (fun c => c = '-')).reverse.dropWhile (fun c => c = '-')).reverse

/-- `_slugify`: lower-case, strip braces, hyphenate non-alphanumeric runs,
collapse and trim hyphens, with fallback `"reference"`. -/
def slugify (name : Str) : Str :=
  let n := (pyStrip name).map toLowerCh
  let n := stripBraces n
  let n := subNonAlnum n
  let n := collapseDashes n
  let n := stripDashes n
  if n = [] then "reference".toList else n

/-- ASCII decimal digit test, modelling `str.isdigit()` per character;
48-57 are the code points of `0`-`9`. -/
def isDigitCh (c : Char) : Bool := 48 ≤ c.toNat && c.toNat ≤ 57

/-- Numeric value of a digit string (the value `int()` computes). -/
def natOfDigits (l : Str) : Nat :=
  l.foldl (fun a c => 10 * a + (c.toNat - 48)) 0

/-- Simple association-list lookup, modelling `dict.get` on the month
table. -/
def assocLookup : List (Str × Nat) → Str → Option Nat
  | [], _ => none
  | (k, v) :: r, s => if k = s then some v else assocLookup r s

/-- The `name_map` table of `_parse_month` (the `"sept"` entry is
unreachable through a 3-character key but is kept for fidelity). -/
def monthTable : List (Str × Nat) :=
  [("jan".toList, 1), ("feb".toList, 2), ("mar".toList, 3), ("apr".toList, 4),
   ("may".toList, 5), ("jun".toList, 6), ("jul".toList, 7), ("aug".toList, 8),
   ("sep".toList, 9), ("sept".toList, 9), ("oct".toList, 10), ("nov".toList, 11),
   ("dec".toList, 12)]

/-- `_parse_month`: default 1 for absent input; strip and lower-case; a
non-empty all-digit string with value in `[1, 12]` yields that value;
otherwise look up the first three characters in the month table,
defaulting to 1. -/
def parseMonth (m : Str) : Nat :=
  if m = [] then 1
  else
    let t := (pyStrip m).map toLowerCh
    if t ≠ [] && t.all isDigitCh then
      let value := natOfDigits t
      if 1 ≤ value && value ≤ 12 then value
      else (assocLookup monthTable (t.take 3)).getD 1
    else (assocLookup monthTable (t.take 3)).getD 1

/-- Python `int()` on a string: optional surrounding whitespace, optional
sign, one or more ASCII digits; `none` models the `ValueError` raised on
any other input. -/
def pyInt (l : Str) : Option Int :=
  let t := pyStrip l
  match t with
  | '+' :: ds =>
    if ds ≠ [] && ds.all isDigitCh then some (natOfDigits ds : Int) else none
  | '-' :: ds =>
    if ds ≠ [] && ds.all isDigitCh then some (-(natOfDigits ds : Int)) else none
  | ds =>
    if ds ≠ [] && ds.all isDigitCh then some (natOfDigits ds : Int) else none

/-- Decimal digit character for `d % 10`. -/
def digitCh (d : Nat) : Char := Char.ofNat (48 + d % 10)

/-- Decimal digits of a natural number (fuel-indexed; `n + 1` units of fuel
always suffice since the argument shrinks by a factor of 10 each step). -/
def natToDigitsAux : Nat → Nat → Str
  | 0, _ => []
  | fuel + 1, n =>
    if n < 10 then [digitCh n]
    else natToDigitsAux fuel (n / 10) ++ [digitCh (n % 10)]

/-- Decimal digit string of a natural number. -/
def natToDigits (n : Nat) : Str := natToDigitsAux (n + 1) n

/-- Left-pad with `'0'` to the given width. -/
def padZeros (w : Nat) (ds : Str) : Str :=
  List.replicate (w - ds.length) '0' ++ ds

/-- The f-string zero-padded decimal conversion of width `w`: sign, then digits, padded so
that the whole rendering (sign included) has at least `w` characters. -/
def fmtInt (w : Nat) (v : Int) : Str :=
  if v < 0 then '-' :: padZeros (w - 1) (natToDigits v.natAbs)
  else padZeros w (natToDigits v.natAbs)

/-- A parsed BibTeX record: field names mapped to raw values, in original
field order (`bibtexparser` yields one such dict per entry). -/
abbrev Entry := List (Str × Str)

/-- `entry.get(field)` on the record dict (first match wins; parsed
records have no duplicate keys). -/
def getField : Entry → Str → Option Str
  | [], _ => none
  | (k, v) :: r, f => if k = f then some v else getField r f

/-- `_format_date`: `ok none` when the cleaned year is empty; `error` when
`int(year)` raises `ValueError`; otherwise the `YYYY-MM-DD` rendering with
month from `_parse_month` and the day defaulted to 1 and clamped to
`[1, 31]`. -/
def formatDate (entry : Entry) : Except Unit (Option Str) :=
  let year := cleanWhitespace (getField entry ("year".toList))
  if year = [] then .ok none
  else
    match pyInt year with
    | none => .error ()
    | some y =>
      let month := parseMonth (cleanWhitespace (getField entry ("month".toList)))
      let day := cleanWhitespace (getField entry ("day".toList))
      let dayValue : Int := if day = [] then 1 else (pyInt day).getD 1
      let dayClamped := min (max dayValue 1) 31
      .ok (some (fmtInt 4 y ++ '-' :: fmtInt 2 (month : Int) ++ '-' :: fmtInt 2 dayClamped))

/-- The literal opening marker `\url\x7b` checked by `_strip_url_command`. -/
def urlMarker : Str := '\\' :: "url\x7b".toList

/-- `_strip_url_command`: trim; if the value starts with `\url\x7b` and ends
with `\x7d`, drop the marker and the final delimiter and trim the inside. -/
def stripUrlCommand (value : Str) : Str :=
  let trimmed := pyStrip value
  if urlMarker.isPrefixOf trimmed && trimmed.getLast? = some '\x7d' then
    pyStrip ((trimmed.drop 5).dropLast)
  else trimmed

/-- `_escape_meta_value`: `value.replace("%", "\\%")`. -/
def escapeMetaValue : Str → Str
  | [] => []
  | c :: r =>
    if c = '%' then '\\' :: '%' :: escapeMetaValue r
    else c :: escapeMetaValue r

/-- The five core fields skipped by the metadata projector (exact,
case-sensitive match). -/
def skipKeys : List Str :=
  ["title".toList, "author".toList, "year".toList, "month".toList, "day".toList]

/-- `URL_FIELDS`: field names that alias to `external` (compared after
lower-casing). -/
def urlFields : List Str :=
  ["url".toList, "howpublished".toList, "external".toList]

/-- `_meta_pairs`: iterate the record in order, skip the core fields, drop
fields whose cleaned value is empty, alias URL-bearing names to
`external` (stripping a `\url\x7b...\x7d` wrapper), escape `%`. -/
def metaPairs : Entry → List (Str × Str)
  | [] => []
  | (field, value) :: rest =>
    if field ∈ skipKeys then metaPairs rest
    else
      let cleaned := cleanWhitespace (some value)
      if cleaned = [] then metaPairs rest
      else
        let metaKey := if field.map toLowerCh ∈ urlFields then "external".toList else field
        let cleaned2 := if metaKey = "external".toList then stripUrlCommand cleaned else cleaned
        (metaKey, escapeMetaValue cleaned2) :: metaPairs rest

/-- Cleaned title with the `"Untitled"` default. -/
def titleValue (entry : Entry) : Str :=
  let t := cleanWhitespace (getField entry ("title".toList))
  if t = [] then "Untitled".toList else t

/-- The rendered `\title\x7b...\x7d` line. -/
def titleLine (entry : Entry) : Str :=
  '\\' :: "title\x7b".toList ++ titleValue entry ++ ['\x7d']

/-- The constant `\taxon\x7bReference\x7d` line. -/
def taxonLine : Str := '\\' :: "taxon\x7bReference\x7d".toList

/-- The rendered `\author/literal\x7b...\x7d` line. -/
def authorLine (a : Str) : Str :=
  '\\' :: "author/literal\x7b".toList ++ a ++ ['\x7d']

/-- The rendered `\date\x7b...\x7d` line. -/
def dateLine (d : Str) : Str :=
  '\\' :: "date\x7b".toList ++ d ++ ['\x7d']

/-- The rendered `\meta\x7bkey\x7d\x7bvalue\x7d` line. -/
def metaLine (k v : Str) : Str :=
  '\\' :: "meta\x7b".toList ++ k ++ '\x7d' :: '\x7b' :: v ++ ['\x7d']

/-- The ordered line list assembled by `build_tree_content`: title and
taxon, author and date when truthy, metadata lines with truthy values,
and a final empty line.  Propagates the `ValueError` from
`_format_date`. -/
def buildLines (entry : Entry) : Except Unit (List Str) :=
  let base := [titleLine entry, taxonLine]
  let withAuthors :=
    match formatAuthors (getField entry ("author".toList)) with
    | some a => if a ≠ [] then base ++ [authorLine a] else base
    | none => base
  match formatDate entry with
  | .error e => .error e
  | .ok dv =>
    let withDate :=
      match dv with
      | some d => if d ≠ [] then withAuthors ++ [dateLine d] else withAuthors
      | none => withAuthors
    let metas := ((metaPairs entry).filter (fun p => p.2 ≠ [])).map (fun p => metaLine p.1 p.2)
    .ok (withDate ++ metas ++ [[]])

/-- `build_tree_content`: the line list joined with `"\n"`. -/
def buildTreeContent (entry : Entry) : Except Unit Str :=
  match buildLines entry with
  | .error e => .error e
  | .ok ls => .ok (List.intercalate ['\n'] ls)

/-- The filesystem visible to the converter: an association list from path
to file content; a later write shadows an earlier one (the head is the
most recent write). -/
abbrev Fs := List (Str × Str)

/-- `target.exists()` / reading a file: the most recent content written at
a path. -/
def lookupPath : Fs → Str → Option Str
  | [], _ => none
  | (q, c) :: r, p => if q = p then some c else lookupPath r p

/-- `target.write_text(body)`: record the new content for the path. -/
def writePath (fs : Fs) (p c : Str) : Fs := (p, c) :: fs

/-- `entry.get("ID") or _slugify(entry.get("title", "reference"))`. -/
def citekeyOf (entry : Entry) : Str :=
  match getField entry ("ID".toList) with
  | some s =>
    if s = [] then slugify ((getField entry ("title".toList)).getD ("reference".toList))
    else s
  | none => slugify ((getField entry ("title".toList)).getD ("reference".toList))

/-- The target path `output_dir` joined with `_slugify(citekey) + ".tree"`, with path
joining modelled as string concatenation around `'/'`. -/
def targetOf (outputDir : Str) (entry : Entry) : Str :=
  outputDir ++ '/' :: (slugify (citekeyOf entry) ++ ".tree".toList)

/-- The abort conditions of `convert_bibtex`, each carrying the filesystem
as it stands at the abort (no rollback). -/
inductive ConvertError where
  | noEntries : ConvertError
  | existingTarget : Fs → ConvertError
  | buildFailure : Fs → ConvertError
deriving DecidableEq

/-- The per-record loop of `convert_bibtex`: check the target for
existence before writing, abort without overwrite, otherwise synthesize
and write the document and record the created path. -/
def runConvert (outputDir : Str) (overwrite : Bool) (fs : Fs) :
    List Entry → Except ConvertError (Fs × List Str)
  | [] => .ok (fs, [])
  | e :: rest =>
    let target := targetOf outputDir e
    if (lookupPath fs target).isSome && !overwrite then .error (.existingTarget fs)
    else
      match buildTreeContent e with
      | .error _ => .error (.buildFailure fs)
      | .ok body =>
        match runConvert outputDir overwrite (writePath fs target body) rest with
        | .error err => .error err
        | .ok (fs2, ps) => .ok (fs2, target :: ps)

/-- `convert_bibtex`: abort on zero entries, otherwise run the per-record
loop over the records in source order. -/
def convertBibtex (outputDir : Str) (overwrite : Bool) (fs : Fs) (entries : List Entry) :
    Except ConvertError (Fs × List Str) :=
  if entries = [] then .error .noEntries else runConvert outputDir overwrite fs entries

/- ------------------------------------------------------------------ -/
/- Claim-side (specification) definitions                              -/
/- ------------------------------------------------------------------ -/

/-- The twelve English month abbreviations of the specification: the
first three letters of each month name. -/
def monthAbbrevs : List (Str × Nat) :=
  [("jan".toList, 1), ("feb".toList, 2), ("mar".toList, 3), ("apr".toList, 4),
   ("may".toList, 5), ("jun".toList, 6), ("jul".toList, 7), ("aug".toList, 8),
   ("sep".toList, 9), ("oct".toList, 10), ("nov".toList, 11), ("dec".toList, 12)]

/-- Claim C7 as amended: a numeric string (after trimming and
lower-casing) whose value lies in `[1, 12]` maps to that value; any other
input maps to the month whose three-letter English prefix equals the
first three letters of the lowercased, trimmed input; unrecognized or
absent input yields 1. -/
def parseMonthSpec (m : Str) : Nat :=
  let t := (pyStrip m).map toLowerCh
  if t ≠ [] && t.all isDigitCh && (1 ≤ natOfDigits t && natOfDigits t ≤ 12) then
    natOfDigits t
  else (assocLookup monthAbbrevs (t.take 3)).getD 1

/-- Claim C5 as amended: `none` models the raise; `some none` models the
Python `None` returned for an absent/empty year; otherwise the
`YYYY-MM-DD` rendering with the year zero-padded to four digits, the
month from `parse_month`, and the day parsed as an integer, defaulting to
1 on absence or parse failure and clamped into `[1, 31]`. -/
def formatDateSpec (entry : Entry) : Option (Option Str) :=
  let year := cleanWhitespace (getField entry ("year".toList))
  if year = [] then some none
  else
    match pyInt year with
    | none => none
    | some y =>
      let m := parseMonth (cleanWhitespace (getField entry ("month".toList)))
      let d := ((pyInt (cleanWhitespace (getField entry ("day".toList)))).getD 1 : Int)
      let dClamped := min (max d 1) 31
      some (some (fmtInt 4 y ++ ('-' :: fmtInt 2 (m : Nat)) ++ ('-' :: fmtInt 2 dClamped)))

/-- Claim C8's description of the projection of one record field: skip
the five exact lowercase core keys; drop fields whose cleaned value is
empty; rename the key to `external` when the original name equals `url`,
`howpublished` or `external` case-insensitively, stripping a
`\url\x7b...\x7d` wrapper from the value when renamed; escape every
literal `%` as `\%`. -/
def projectFieldSpec : Str × Str → Option (Str × Str)
  | (f, v) =>
    if f = "title".toList ∨ f = "author".toList ∨ f = "year".toList ∨
       f = "month".toList ∨ f = "day".toList then none
    else if cleanWhitespace (some v) = [] then none
    else if f.map toLowerCh = "url".toList ∨ f.map toLowerCh = "howpublished".toList ∨
            f.map toLowerCh = "external".toList then
      some ("external".toList, escapeMetaValue (stripUrlCommand (cleanWhitespace (some v))))
    else some (f, escapeMetaValue (cleanWhitespace (some v)))

/-- The regular expression `[a-z0-9]+(-[a-z0-9]+)*` of claim C4: splitting
on `'-'` yields at least one group, and every group is a non-empty string
of lowercase alphanumerics (so there is no leading, trailing or doubled
hyphen). -/
def matchesSlugPat (l : Str) : Bool :=
  (l.splitOn '-').all (fun g => !g.isEmpty && g.all isLowerAlnum)

/-- Every `%` in the string is immediately preceded by a backslash
(claim C10's notion of an escaped metadata value). -/
def percentEscapedPairs : Str → Bool
  | a :: b :: r => (!(b = '%') || a = '\\') && percentEscapedPairs (b :: r)
  | _ => true

/-- A string whose every `%` occurrence is escaped: it does not start
with `%`, and any later `%` is immediately preceded by `\`. -/
def percentEscaped (l : Str) : Bool :=
  (l.head? ≠ some '%') && percentEscapedPairs l

/-- Number of occurrences of a character. -/
def countCh (c : Char) (l : Str) : Nat := l.count c

/-- A rendered title line: starts with the `\title\x7b` command marker. -/
def isTitleLn (l : Str) : Bool := ('\\' :: "title\x7b".toList).isPrefixOf l

/-- A rendered author line: starts with the `\author/literal\x7b` marker. -/
def isAuthorLn (l : Str) : Bool := ('\\' :: "author/literal\x7b".toList).isPrefixOf l

/-- A rendered date line: starts with the `\date\x7b` marker. -/
def isDateLn (l : Str) : Bool := ('\\' :: "date\x7b".toList).isPrefixOf l

/-- A rendered metadata line: starts with the `\meta\x7b` marker. -/
def isMetaLn (l : Str) : Bool := ('\\' :: "meta\x7b".toList).isPrefixOf l

/-- The constant taxonomy line. -/
def isTaxonLn (l : Str) : Bool := l = taxonLine

/-- The rendered metadata lines of a record, in the record's original
field order (only pairs whose rendered value is truthy). -/
def metaLines (e : Entry) : List Str :=
  ((metaPairs e).filter (fun p => p.2 ≠ [])).map (fun p => metaLine p.1 p.2)

/-- The optional author line of a record. -/
def authorOptLines (e : Entry) : List Str :=
  match formatAuthors (getField e ("author".toList)) with
  | some a => [authorLine a]
  | none => []

/-- The optional date line for a `format_date` result. -/
def dateOptLines : Option Str → List Str
  | some d => [dateLine d]
  | none => []

/- ------------------------------------------------------------------ -/
/- Basic facts about stripping and splitting                           -/
/- ------------------------------------------------------------------ -/

theorem head?_dropWhile {p : Char → Bool} {l : Str} {c : Char}
    (h : (l.dropWhile p).head? = some c) : p c = false := by
  induction l with
  | nil => simp [List.dropWhile] at h
  | cons a t ih =>
    by_cases hp : p a
    · rw [List.dropWhile_cons, if_pos hp] at h
      exact ih h
    · rw [List.dropWhile_cons, if_neg hp] at h
      simp only [List.head?_cons, Option.some.injEq] at h
      subst h
      simpa using hp

theorem pyStrip_pre_dropWhile (l : Str) :
    pyStrip l <+: l.dropWhile isSpace := by
  unfold pyStrip
  obtain ⟨t, ht⟩ := List.dropWhile_suffix (l := (l.dropWhile isSpace).reverse) isSpace
  refine ⟨t.reverse, ?_⟩
  have := congrArg List.reverse ht
  simpa using this

theorem pyStrip_within (l : Str) : pyStrip l <:+: l :=
  (pyStrip_pre_dropWhile l).isInfix.trans (List.dropWhile_suffix isSpace).isInfix

theorem mem_pyStrip {c : Char} {l : Str} (h : c ∈ pyStrip l) : c ∈ l :=
  (pyStrip_within l).sublist.subset h

theorem pyStrip_head_not_space {l : Str} {c : Char}
    (h : (pyStrip l).head? = some c) : isSpace c = false := by
  have hpre := pyStrip_pre_dropWhile l
  obtain ⟨t, ht⟩ := hpre
  cases hps : pyStrip l with
  | nil => rw [hps] at h; simp at h
  | cons a r =>
    rw [hps] at h ht
    simp only [List.head?_cons, Option.some.injEq] at h
    subst h
    exact head?_dropWhile (l := l) (p := isSpace) (by rw [← ht]; rfl)

theorem pyStrip_getLast_not_space {l : Str} {c : Char}
    (h : (pyStrip l).getLast? = some c) : isSpace c = false := by
  unfold pyStrip at h
  rw [List.getLast?_reverse] at h
  exact head?_dropWhile h

theorem dropWhile_eq_self_of_head {p : Char → Bool} {l : Str}
    (h : ∀ c, l.head? = some c → p c = false) : l.dropWhile p = l := by
  cases l with
  | nil => rfl
  | cons a t =>
    rw [List.dropWhile_cons, if_neg]
    simp [h a rfl]

theorem pyStrip_eq_self {l : Str}
    (hh : ∀ c, l.head? = some c → isSpace c = false)
    (hl : ∀ c, l.getLast? = some c → isSpace c = false) : pyStrip l = l := by
  unfold pyStrip
  rw [dropWhile_eq_self_of_head hh]
  rw [dropWhile_eq_self_of_head (by intro c hc; rw [List.head?_reverse] at hc; exact hl c hc)]
  exact List.reverse_reverse l

theorem pyStrip_idem (l : Str) : pyStrip (pyStrip l) = pyStrip l :=
  pyStrip_eq_self (fun _ h => pyStrip_head_not_space h)
    (fun _ h => pyStrip_getLast_not_space h)

/- ------------------------------------------------------------------ -/
/- Facts about the brace-stripping loop                                -/
/- ------------------------------------------------------------------ -/

theorem stripBracesLoop_within (l : Str) : stripBracesLoop l <:+: l := by
  induction l using stripBracesLoop.induct with
  | case1 l h ih =>
    have he : stripBracesLoop l = stripBracesLoop (pyStrip ((l.drop 1).dropLast)) := by
      rw [stripBracesLoop, if_pos h]
    rw [he]
    refine ih.trans ((pyStrip_within _).trans ?_)
    exact (( List.dropLast_prefix _).isInfix.trans (List.drop_suffix 1 l).isInfix)
  | case2 l h =>
    rw [stripBracesLoop, if_neg h]

theorem stripBracesLoop_idem (l : Str) :
    stripBracesLoop (stripBracesLoop l) = stripBracesLoop l := by
  induction l using stripBracesLoop.induct with
  | case1 l h ih =>
    have he : stripBracesLoop l = stripBracesLoop (pyStrip ((l.drop 1).dropLast)) := by
      rw [stripBracesLoop, if_pos h]
    rw [he]
    exact ih
  | case2 l h =>
    have he : stripBracesLoop l = l := by rw [stripBracesLoop, if_neg h]
    rw [he, he]

theorem stripBracesLoop_pyStrip_image (l : Str) :
    (∃ m, l = pyStrip m) → ∃ m, stripBracesLoop l = pyStrip m := by
  induction l using stripBracesLoop.induct with
  | case1 l h ih =>
    intro _
    have he : stripBracesLoop l = stripBracesLoop (pyStrip ((l.drop 1).dropLast)) := by
      rw [stripBracesLoop, if_pos h]
    rw [he]
    exact ih ⟨_, rfl⟩
  | case2 l h =>
    intro hm
    rw [stripBracesLoop, if_neg h]
    exact hm

theorem stripBraces_pyStrip_image (l : Str) : ∃ m, stripBraces l = pyStrip m :=
  stripBracesLoop_pyStrip_image (pyStrip l) ⟨l, rfl⟩

theorem stripBraces_within (l : Str) : stripBraces l <:+: l :=
  (stripBracesLoop_within (pyStrip l)).trans (pyStrip_within l)

/- ------------------------------------------------------------------ -/
/- Whitespace words: splitting and joining                             -/
/- ------------------------------------------------------------------ -/

theorem takeWhile_append_of_all {p : Char → Bool} {xs ys : Str}
    (h : ∀ x ∈ xs, p x = true) :
    (xs ++ ys).takeWhile p = xs ++ ys.takeWhile p := by
  induction xs with
  | nil => simp
  | cons a t ih =>
    have ha : p a = true := h a (List.mem_cons_self a t)
    simp only [List.cons_append, List.takeWhile_cons, ha, if_true]
    rw [ih (fun x hx => h x (List.mem_cons_of_mem a hx))]

theorem dropWhile_append_of_all {p : Char → Bool} {xs ys : Str}
    (h : ∀ x ∈ xs, p x = true) :
    (xs ++ ys).dropWhile p = ys.dropWhile p := by
  induction xs with
  | nil => simp
  | cons a t ih =>
    have ha : p a = true := h a (List.mem_cons_self a t)
    simp only [List.cons_append, List.dropWhile_cons, ha, if_true]
    exact ih (fun x hx => h x (List.mem_cons_of_mem a hx))

theorem pySplit_frags (l : Str) :
    ∀ w ∈ pySplit l, w ≠ [] ∧ ∀ c ∈ w, isSpace c = false := by
  induction l using pySplit.induct with
  | case1 => intro w hw; simp [pySplit] at hw
  | case2 c rest h ih =>
    intro w hw
    rw [pySplit, if_pos h] at hw
    exact ih w hw
  | case3 c rest h ih =>
    intro w hw
    rw [pySplit, if_neg h] at hw
    rcases List.mem_cons.mp hw with rfl | hw
    · refine ⟨by simp, ?_⟩
      intro d hd
      rcases List.mem_cons.mp hd with rfl | hd
      · simpa using h
      · have := List.mem_takeWhile_imp hd
        simpa using this
    · exact ih w hw

theorem intercalate_cons_of_ne_nil {s : Str} {w : Str} {ws : List Str} (h : ws ≠ []) :
    List.intercalate s (w :: ws) = w ++ s ++ List.intercalate s ws := by
  cases ws with
  | nil => simp at h
  | cons w2 ws' =>
    simp [List.intercalate, List.intersperse]

theorem pySplit_intercalate {ws : List Str}
    (h : ∀ w ∈ ws, w ≠ [] ∧ ∀ c ∈ w, isSpace c = false) :
    pySplit (List.intercalate [' '] ws) = ws := by
  induction ws with
  | nil => simp [List.intercalate, pySplit]
  | cons w ws ih =>
    obtain ⟨hw, hwc⟩ := h w (List.mem_cons_self w ws)
    obtain ⟨c, w', rfl⟩ : ∃ c w', w = c :: w' := by
      cases w with
      | nil => simp at hw
      | cons c w' => exact ⟨c, w', rfl⟩
    have hc : isSpace c = false := hwc c (List.mem_cons_self c w')
    have hw' : ∀ x ∈ w', (fun d => !isSpace d) x = true := by
      intro x hx
      simp [hwc x (List.mem_cons_of_mem c hx)]
    cases ws with
    | nil =>
      simp only [List.intercalate, List.intersperse, List.flatten, List.append_nil]
      rw [pySplit]
      simp only [hc, Bool.false_eq_true, if_false]
      rw [List.takeWhile_eq_self_iff.mpr hw']
      rw [List.dropWhile_eq_nil_iff.mpr (fun x hx => by simp [hwc x (List.mem_cons_of_mem c hx)])]
      rw [pySplit]
    | cons w2 ws' =>
      rw [intercalate_cons_of_ne_nil (by simp)]
      rw [List.append_assoc, List.cons_append]
      rw [pySplit]
      simp only [hc, Bool.false_eq_true, if_false]
      rw [takeWhile_append_of_all hw', dropWhile_append_of_all hw']
      simp only [List.singleton_append, List.takeWhile_cons, List.dropWhile_cons]
      have hsp : isSpace ' ' = true := rfl
      simp only [hsp, Bool.not_true, Bool.false_eq_true, if_false, if_true]
      rw [pySplit, if_pos hsp]
      rw [ih (fun x hx => h x (List.mem_cons_of_mem _ hx))]
      simp

theorem mem_intercalate_sep {s c : Char} {ws : List Str}
    (h : c ∈ List.intercalate [s] ws) : (∃ w ∈ ws, c ∈ w) ∨ c = s := by
  induction ws with
  | nil => simp [List.intercalate] at h
  | cons w ws ih =>
    cases ws with
    | nil =>
      have h' : c ∈ w := by simpa [List.intercalate, List.intersperse] using h
      exact Or.inl ⟨w, List.mem_cons_self w [], h'⟩
    | cons w2 ws' =>
      rw [intercalate_cons_of_ne_nil (by simp)] at h
      rcases List.mem_append.mp h with h1 | h2
      · rcases List.mem_append.mp h1 with h3 | h4
        · exact Or.inl ⟨w, List.mem_cons_self w _, h3⟩
        · exact Or.inr (by simpa using h4)
      · rcases ih h2 with ⟨w', hw', hc⟩ | rfl
        · exact Or.inl ⟨w', List.mem_cons_of_mem w hw', hc⟩
        · exact Or.inr rfl

theorem mem_of_getLast?_eq {l : Str} {c : Char} (h : l.getLast? = some c) : c ∈ l := by
  obtain ⟨hne, rfl⟩ := List.mem_getLast?_eq_getLast (Option.mem_def.mpr h)
  exact List.getLast_mem hne

theorem chain'_of_all_ne {sep : Char} {l : Str} (h : ∀ c ∈ l, c ≠ sep) :
    l.Chain' (fun a b => ¬(a = sep ∧ b = sep)) := by
  induction l with
  | nil => simp
  | cons a t ih =>
    rw [List.chain'_cons']
    refine ⟨?_, ih (fun c hc => h c (List.mem_cons_of_mem a hc))⟩
    intro y _ hy
    exact h a (List.mem_cons_self a t) hy.1

theorem head?_intercalate_cons {s : Char} {w : Str} {ws : List Str} (hw : w ≠ []) :
    (List.intercalate [s] (w :: ws)).head? = w.head? := by
  obtain ⟨c, w', rfl⟩ : ∃ c w', w = c :: w' := by
    cases w with
    | nil => simp at hw
    | cons c w' => exact ⟨c, w', rfl⟩
  cases ws with
  | nil => simp [List.intercalate, List.intersperse]
  | cons w2 ws' =>
    rw [intercalate_cons_of_ne_nil (by simp)]
    simp

theorem chain'_intercalate {sep : Char} {ws : List Str}
    (h : ∀ w ∈ ws, w ≠ [] ∧ ∀ c ∈ w, c ≠ sep) :
    (List.intercalate [sep] ws).Chain' (fun a b => ¬(a = sep ∧ b = sep)) := by
  induction ws with
  | nil => simp [List.intercalate]
  | cons w ws ih =>
    obtain ⟨hw, hwc⟩ := h w (List.mem_cons_self w ws)
    cases ws with
    | nil =>
      have := chain'_of_all_ne hwc
      simpa [List.intercalate, List.intersperse] using this
    | cons w2 ws' =>
      rw [intercalate_cons_of_ne_nil (by simp), List.append_assoc]
      rw [List.chain'_append]
      refine ⟨chain'_of_all_ne hwc, ?_, ?_⟩
      · rw [List.singleton_append, List.chain'_cons']
        refine ⟨?_, ih (fun x hx => h x (List.mem_cons_of_mem _ hx))⟩
        intro y hy hc
        have h2 := h w2 (by simp)
        rw [head?_intercalate_cons h2.1] at hy
        obtain ⟨c2, w2', rfl⟩ : ∃ c w', w2 = c :: w' := by
          cases w2 with
          | nil => simp at h2
          | cons c w' => exact ⟨c, w', rfl⟩
        simp only [List.head?_cons, Option.mem_def, Option.some.injEq] at hy
        refine h2.2 y ?_ hc.2
        rw [← hy]
        exact List.mem_cons_self _ _
      · intro x hx y _ hc
        exact hwc x (mem_of_getLast?_eq (Option.mem_def.mp hx)) hc.1

/-- Decomposition of a separated string: if every character is either
`good` or the separator, no two separators are adjacent, and the string
neither starts nor ends with the separator, then the string is the
interleaving of non-empty all-`good` words with single separators. -/
theorem decompose_sep {sep : Char} {good : Char → Bool} :
    ∀ n (l : Str), l.length ≤ n →
      (∀ c ∈ l, good c = true ∨ c = sep) →
      l.Chain' (fun a b => ¬(a = sep ∧ b = sep)) →
      (∀ c, l.head? = some c → c ≠ sep) →
      (∀ c, l.getLast? = some c → c ≠ sep) →
      ∃ ws : List Str, (l ≠ [] → ws ≠ []) ∧
        (∀ w ∈ ws, w ≠ [] ∧ ∀ c ∈ w, good c = true) ∧
        l = List.intercalate [sep] ws := by
  intro n
  induction n with
  | zero =>
    intro l hl _ _ _ _
    have hnil : l = [] := by cases l with
      | nil => rfl
      | cons a t => simp at hl
    subst hnil
    exact ⟨[], by simp, by simp, by simp [List.intercalate]⟩
  | succ n ihn =>
    intro l hl hall hchain hh hlast
    cases l with
    | nil => exact ⟨[], by simp, by simp, by simp [List.intercalate]⟩
    | cons c r =>
      have hc : good c = true := by
        rcases hall c (List.mem_cons_self c r) with h | h
        · exact h
        · exact absurd h (hh c rfl)
      cases hdrop : r.dropWhile (fun d => !(d = sep)) with
      | nil =>
        refine ⟨[c :: r], by simp, ?_, by simp [List.intercalate, List.intersperse]⟩
        intro w hw
        rcases List.mem_cons.mp hw with rfl | hw
        · refine ⟨by simp, ?_⟩
          intro d hd
          rcases List.mem_cons.mp hd with rfl | hd
          · exact hc
          · have hdne : d ≠ sep := by
              have := List.dropWhile_eq_nil_iff.mp hdrop d hd
              simpa using this
            rcases hall d (List.mem_cons_of_mem c hd) with h | h
            · exact h
            · exact absurd h hdne
        · simp at hw
      | cons s0 r2 =>
        have hs0 : s0 = sep := by
          have := head?_dropWhile (p := fun d => !(d = sep)) (l := r)
            (c := s0) (by rw [hdrop]; rfl)
          simpa using this
        rw [hs0] at hdrop
        clear hs0
        have hsplit : c :: r = (c :: r.takeWhile (fun d => !(d = sep))) ++ sep :: r2 := by
          rw [List.cons_append]
          congr 1
          rw [← hdrop]
          exact (List.takeWhile_append_dropWhile _ _).symm
        have hr2 : r2 ≠ [] := by
          intro h0
          subst h0
          have hlast2 : (c :: r).getLast? = some sep := by
            rw [hsplit]
            exact List.getLast?_append_cons _ sep []
          exact hlast sep hlast2 rfl
        have hsuffix : r2 <:+ c :: r := ⟨(c :: r.takeWhile (fun d => !(d = sep))) ++ [sep], by
          rw [hsplit]; simp⟩
        have hall2 : ∀ d ∈ r2, good d = true ∨ d = sep :=
          fun d hd => hall d (hsuffix.sublist.subset hd)
        have hchain2 : r2.Chain' (fun a b => ¬(a = sep ∧ b = sep)) :=
          hchain.suffix hsuffix
        have hh2 : ∀ d, r2.head? = some d → d ≠ sep := by
          intro d hd hds
          have hcr : (c :: r).Chain' (fun a b => ¬(a = sep ∧ b = sep)) := hchain
          rw [hsplit] at hcr
          have := (List.chain'_append.mp hcr).2.1
          rw [List.chain'_cons'] at this
          exact this.1 d (Option.mem_def.mpr hd) ⟨rfl, hds⟩
        have hlast2 : ∀ d, r2.getLast? = some d → d ≠ sep := by
          intro d hd
          apply hlast d
          rw [hsplit, List.getLast?_append_cons]
          obtain ⟨x, r2', rfl⟩ : ∃ x r2', r2 = x :: r2' := by
            cases r2 with
            | nil => simp at hr2
            | cons x r2' => exact ⟨x, r2', rfl⟩
          rw [List.getLast?_cons_cons]
          exact hd
        have hlen2 : r2.length ≤ n := by
          have hsl := congrArg List.length hsplit
          simp only [List.length_cons, List.length_append] at hsl hl
          omega
        obtain ⟨ws2, hne2, hgood2, heq2⟩ := ihn r2 hlen2 hall2 hchain2 hh2 hlast2
        refine ⟨(c :: r.takeWhile (fun d => !(d = sep))) :: ws2, by simp, ?_, ?_⟩
        · intro w hw
          rcases List.mem_cons.mp hw with rfl | hw
          · refine ⟨by simp, ?_⟩
            intro d hd
            rcases List.mem_cons.mp hd with rfl | hd
            · exact hc
            · have hdne : d ≠ sep := by
                have := List.mem_takeWhile_imp hd
                simpa using this
              rcases hall d (List.mem_cons_of_mem c (( List.takeWhile_prefix _).sublist.subset hd)) with h | h
              · exact h
              · exact absurd h hdne
          · exact hgood2 w hw
        · rw [intercalate_cons_of_ne_nil (hne2 hr2), hsplit, heq2]
          simp

/- ------------------------------------------------------------------ -/
/- Idempotence of the whitespace/brace cleaner                         -/
/- ------------------------------------------------------------------ -/

theorem mem_flattenWs {c : Char} {l : Str} (h : c ∈ flattenWs l) :
    isSpace c = false ∨ c = ' ' := by
  rcases mem_intercalate_sep h with ⟨w, hw, hc⟩ | rfl
  · exact Or.inl ((pySplit_frags _ w hw).2 c hc)
  · exact Or.inr rfl

theorem flattenWs_chain (l : Str) :
    (flattenWs l).Chain' (fun a b => ¬(a = ' ' ∧ b = ' ')) := by
  apply chain'_intercalate
  intro w hw
  obtain ⟨h1, h2⟩ := pySplit_frags _ w hw
  refine ⟨h1, ?_⟩
  intro c hc hcs
  subst hcs
  have := h2 ' ' hc
  simp [isSpace] at this

theorem flattenWs_no_newline {c : Char} {l : Str} (h : c ∈ flattenWs l) : c ≠ '\n' := by
  rcases mem_flattenWs h with h1 | h1
  · intro he; subst he; simp [isSpace] at h1
  · intro he; rw [he] at h1; exact absurd h1 (by decide)

theorem map_replNl_eq_self {l : Str} (h : ∀ c ∈ l, c ≠ '\n') :
    l.map (fun c => if c = '\n' then ' ' else c) = l := by
  induction l with
  | nil => rfl
  | cons a t ih =>
    simp only [List.map_cons, List.cons.injEq]
    refine ⟨by simp [h a (List.mem_cons_self a t)], ih (fun c hc => h c (List.mem_cons_of_mem a hc))⟩

theorem flattenWs_idem (l : Str) : flattenWs (flattenWs l) = flattenWs l := by
  have h1 : (flattenWs l).map (fun c => if c = '\n' then ' ' else c) = flattenWs l :=
    map_replNl_eq_self (fun c hc => flattenWs_no_newline hc)
  have h2 : pySplit (flattenWs l) = pySplit (l.map (fun c => if c = '\n' then ' ' else c)) :=
    pySplit_intercalate (pySplit_frags _)
  rw [flattenWs, h1, h2, flattenWs]

theorem flattenWs_stripBraces_flattenWs (l : Str) :
    flattenWs (stripBraces (flattenWs l)) = stripBraces (flattenWs l) := by
  obtain ⟨m, hm⟩ := stripBraces_pyStrip_image (flattenWs l)
  have hh : ∀ c, (stripBraces (flattenWs l)).head? = some c → c ≠ ' ' := by
    intro c hc
    rw [hm] at hc
    have := pyStrip_head_not_space hc
    intro he; subst he; simp [isSpace] at this
  have hlz : ∀ c, (stripBraces (flattenWs l)).getLast? = some c → c ≠ ' ' := by
    intro c hc
    rw [hm] at hc
    have := pyStrip_getLast_not_space hc
    intro he; subst he; simp [isSpace] at this
  have hmem : ∀ c ∈ stripBraces (flattenWs l), (!isSpace c) = true ∨ c = ' ' := by
    intro c hc
    have hcf : c ∈ flattenWs l := (stripBraces_within _).sublist.subset hc
    rcases mem_flattenWs hcf with h | h
    · exact Or.inl (by simp [h])
    · exact Or.inr h
  have hchain : (stripBraces (flattenWs l)).Chain' (fun a b => ¬(a = ' ' ∧ b = ' ')) :=
    List.Chain'.infix (flattenWs_chain l) (stripBraces_within _)
  obtain ⟨ws, hne, hgood, heq⟩ :=
    decompose_sep (stripBraces (flattenWs l)).length (stripBraces (flattenWs l))
      le_rfl hmem hchain hh hlz
  have hgood' : ∀ w ∈ ws, w ≠ [] ∧ ∀ c ∈ w, isSpace c = false := by
    intro w hw
    obtain ⟨h1, h2⟩ := hgood w hw
    exact ⟨h1, fun c hc => by simpa using h2 c hc⟩
  have hnl : ∀ c ∈ stripBraces (flattenWs l), c ≠ '\n' :=
    fun c hc => flattenWs_no_newline ((stripBraces_within _).sublist.subset hc)
  rw [flattenWs, map_replNl_eq_self hnl]
  conv_lhs => rw [heq]
  rw [pySplit_intercalate hgood']
  exact heq.symm

/-- C2: `clean` is idempotent: for every string input `x`,
`clean(clean(x)) = clean(x)`, where `clean` collapses every whitespace
run (including line breaks) to a single space, trims the ends, and
repeatedly strips fully-enclosing brace pairs until none remains or a
single character is left. -/
theorem c2_clean_idempotent (x : Str) :
    cleanWhitespace (some (cleanWhitespace (some x))) = cleanWhitespace (some x) := by
  by_cases hs : x = []
  · subst hs; rfl
  · have h1 : cleanWhitespace (some x) = stripBraces (flattenWs x) := by
      simp [cleanWhitespace, hs]
    by_cases hy0 : stripBraces (flattenWs x) = []
    · rw [h1, hy0]; rfl
    · rw [h1]
      have h2 : cleanWhitespace (some (stripBraces (flattenWs x))) =
          stripBraces (flattenWs (stripBraces (flattenWs x))) := by
        simp [cleanWhitespace, hy0]
      rw [h2, flattenWs_stripBraces_flattenWs x]
      obtain ⟨m, hm⟩ := stripBraces_pyStrip_image (flattenWs x)
      show stripBracesLoop (pyStrip (stripBraces (flattenWs x))) = stripBraces (flattenWs x)
      rw [hm, pyStrip_idem m, ← hm]
      show stripBracesLoop (stripBracesLoop (pyStrip (flattenWs x))) = _
      rw [stripBracesLoop_idem]
      rfl

/- ------------------------------------------------------------------ -/
/- Generalized end-stripping lemmas, instantiated for hyphens          -/
/- ------------------------------------------------------------------ -/

theorem toNat_ofNat_of_lt {n : Nat} (h : n < 55296) : (Char.ofNat n).toNat = n := by
  unfold Char.ofNat
  rw [dif_pos (Or.inl h)]
  simp [Char.toNat, Char.ofNatAux, UInt32.ofNat', UInt32.toNat]

theorem stripP_pre (p : Char → Bool) (l : Str) :
    ((l.dropWhile p).reverse.dropWhile p).reverse <+: l.dropWhile p := by
  obtain ⟨t, ht⟩ := List.dropWhile_suffix (l := (l.dropWhile p).reverse) p
  refine ⟨t.reverse, ?_⟩
  have := congrArg List.reverse ht
  simpa using this

theorem stripP_within (p : Char → Bool) (l : Str) :
    ((l.dropWhile p).reverse.dropWhile p).reverse <:+: l :=
  (stripP_pre p l).isInfix.trans (List.dropWhile_suffix p).isInfix

theorem stripP_head_not {p : Char → Bool} {l : Str} {c : Char}
    (h : (((l.dropWhile p).reverse.dropWhile p).reverse).head? = some c) :
    p c = false := by
  have hpre := stripP_pre p l
  obtain ⟨t, ht⟩ := hpre
  cases hps : ((l.dropWhile p).reverse.dropWhile p).reverse with
  | nil => rw [hps] at h; simp at h
  | cons a r =>
    rw [hps] at h ht
    simp only [List.head?_cons, Option.some.injEq] at h
    subst h
    exact head?_dropWhile (l := l) (p := p) (by rw [← ht]; rfl)

theorem stripP_getLast_not {p : Char → Bool} {l : Str} {c : Char}
    (h : (((l.dropWhile p).reverse.dropWhile p).reverse).getLast? = some c) :
    p c = false := by
  rw [List.getLast?_reverse] at h
  exact head?_dropWhile h

theorem stripP_eq_self {p : Char → Bool} {l : Str}
    (hh : ∀ c, l.head? = some c → p c = false)
    (hl : ∀ c, l.getLast? = some c → p c = false) :
    ((l.dropWhile p).reverse.dropWhile p).reverse = l := by
  rw [dropWhile_eq_self_of_head hh]
  rw [dropWhile_eq_self_of_head (by intro c hc; rw [List.head?_reverse] at hc; exact hl c hc)]
  exact List.reverse_reverse l

theorem stripDashes_within (l : Str) : stripDashes l <:+: l :=
  stripP_within _ l

theorem stripDashes_head_not {l : Str} {c : Char}
    (h : (stripDashes l).head? = some c) : c ≠ '-' := by
  have := stripP_head_not (p := fun c => c = '-') h
  simpa using this

theorem stripDashes_getLast_not {l : Str} {c : Char}
    (h : (stripDashes l).getLast? = some c) : c ≠ '-' := by
  have := stripP_getLast_not (p := fun c => c = '-') h
  simpa using this

theorem stripDashes_eq_self {l : Str}
    (hh : ∀ c, l.head? = some c → c ≠ '-')
    (hl : ∀ c, l.getLast? = some c → c ≠ '-') : stripDashes l = l := by
  apply stripP_eq_self
  · intro c hc; simpa using hh c hc
  · intro c hc; simpa using hl c hc

/- ------------------------------------------------------------------ -/
/- The slug alphabet and the stages of slugify                         -/
/- ------------------------------------------------------------------ -/

theorem isLowerAlnum_not_space {c : Char} (h : isLowerAlnum c = true) :
    isSpace c = false := by
  cases hs : isSpace c
  · rfl
  · exfalso
    have hlt : 48 ≤ c.toNat := by
      simp only [isLowerAlnum, Bool.or_eq_true, Bool.and_eq_true, decide_eq_true_eq] at h
      rcases h with ⟨h1, _⟩ | ⟨h1, _⟩ <;> omega
    simp only [isSpace, Bool.or_eq_true, decide_eq_true_eq] at hs
    rcases hs with ((((hs | hs) | hs) | hs) | hs) | hs <;>
      (rw [hs] at hlt; exact absurd hlt (by decide))

theorem subNonAlnum_chars :
    ∀ l : Str, ∀ c ∈ subNonAlnum l, isLowerAlnum c = true ∨ c = '-' := by
  intro l
  induction l using subNonAlnum.induct with
  | case1 => simp [subNonAlnum]
  | case2 c hc =>
    intro d hd
    rw [subNonAlnum, if_pos hc] at hd
    rcases List.mem_singleton.mp hd with rfl
    exact Or.inl hc
  | case3 c hc =>
    intro d hd
    rw [subNonAlnum, if_neg hc] at hd
    rcases List.mem_singleton.mp hd with rfl
    exact Or.inr rfl
  | case4 a b r ha ih =>
    intro d hd
    rw [subNonAlnum, if_pos ha] at hd
    rcases List.mem_cons.mp hd with rfl | hd
    · exact Or.inl ha
    · exact ih d hd
  | case5 a b r ha hb ih =>
    intro d hd
    rw [subNonAlnum, if_neg ha, if_pos hb] at hd
    rcases List.mem_cons.mp hd with rfl | hd
    · exact Or.inr rfl
    · exact ih d hd
  | case6 a b r ha hb ih =>
    intro d hd
    rw [subNonAlnum, if_neg ha, if_neg hb] at hd
    exact ih d hd

theorem collapseDashes_subset :
    ∀ l : Str, ∀ c ∈ collapseDashes l, c ∈ l := by
  intro l
  induction l using collapseDashes.induct with
  | case1 => simp [collapseDashes]
  | case2 c => simp [collapseDashes]
  | case3 a b r hab ih =>
    intro d hd
    rw [collapseDashes, if_pos hab] at hd
    exact List.mem_cons_of_mem a (ih d hd)
  | case4 a b r hab ih =>
    intro d hd
    rw [collapseDashes, if_neg hab] at hd
    rcases List.mem_cons.mp hd with rfl | hd
    · exact List.mem_cons_self d _
    · exact List.mem_cons_of_mem a (ih d hd)

theorem collapseDashes_head :
    ∀ l : Str, (collapseDashes l).head? = l.head? := by
  intro l
  induction l using collapseDashes.induct with
  | case1 => rfl
  | case2 c => rfl
  | case3 a b r hab ih =>
    rw [collapseDashes, if_pos hab, ih]
    simp only [Bool.and_eq_true, decide_eq_true_eq] at hab
    simp [hab.1, hab.2]
  | case4 a b r hab ih =>
    rw [collapseDashes, if_neg hab]
    rfl

theorem collapseDashes_chain :
    ∀ l : Str, (collapseDashes l).Chain' (fun a b => ¬(a = '-' ∧ b = '-')) := by
  intro l
  induction l using collapseDashes.induct with
  | case1 => simp [collapseDashes]
  | case2 c => simp [collapseDashes]
  | case3 a b r hab ih =>
    rw [collapseDashes, if_pos hab]
    exact ih
  | case4 a b r hab ih =>
    rw [collapseDashes, if_neg hab]
    rw [List.chain'_cons']
    refine ⟨?_, ih⟩
    intro y hy hc
    rw [collapseDashes_head, List.head?_cons] at hy
    simp only [Option.mem_def, Option.some.injEq] at hy
    subst hy
    simp only [Bool.and_eq_true, decide_eq_true_eq] at hab
    exact hab ⟨hc.1, hc.2⟩

/-- Structural invariants of every `slugify` result: non-empty, alphabet
`[a-z0-9-]`, no doubled hyphen, and no hyphen at either end. -/
theorem slugify_facts (s : Str) :
    slugify s ≠ [] ∧
    (∀ c ∈ slugify s, isLowerAlnum c = true ∨ c = '-') ∧
    (slugify s).Chain' (fun a b => ¬(a = '-' ∧ b = '-')) ∧
    (slugify s).head? ≠ some '-' ∧
    (slugify s).getLast? ≠ some '-' := by
  simp only [slugify]
  by_cases hn : stripDashes (collapseDashes (subNonAlnum (stripBraces ((pyStrip s).map toLowerCh)))) = []
  · rw [if_pos hn]
    have hlist : ("reference".toList : Str) = ['r', 'e', 'f', 'e', 'r', 'e', 'n', 'c', 'e'] := rfl
    refine ⟨by decide, ?_, ?_, by decide, by decide⟩
    · intro c hc
      rw [hlist] at hc
      simp only [List.mem_cons, List.mem_singleton] at hc
      rcases hc with rfl | rfl | rfl | rfl | rfl | rfl | rfl | rfl | rfl | hc
      all_goals first
        | decide
        | exact absurd hc (List.not_mem_nil c)
    · rw [hlist]
      simp only [List.chain'_cons, List.chain'_singleton, and_true]
      decide
  · rw [if_neg hn]
    refine ⟨hn, ?_, ?_, ?_, ?_⟩
    · intro c hc
      have hc2 := (stripDashes_within _).sublist.subset hc
      have hc3 := collapseDashes_subset _ c hc2
      exact subNonAlnum_chars _ c hc3
    · exact List.Chain'.infix (collapseDashes_chain _) (stripDashes_within _)
    · intro h
      exact stripDashes_head_not h rfl
    · intro h
      exact stripDashes_getLast_not h rfl

/-- C4: `slugify` is total and deterministic; every result matches
`[a-z0-9]+(-[a-z0-9]+)*` (the fallback `"reference"` also matches), and
an input without alphanumeric content yields the literal fallback, e.g.
`slugify("!!!") = "reference"`. -/
theorem c4_slugify_total_pattern :
    (∀ s : Str, matchesSlugPat (slugify s) = true) ∧
    slugify ("!!!".toList) = "reference".toList := by
  constructor
  · intro s
    obtain ⟨hne, hchars, hchain, hh, hl⟩ := slugify_facts s
    obtain ⟨ws, hwsne, hgood, heq⟩ :=
      @decompose_sep '-' isLowerAlnum (slugify s).length (slugify s) le_rfl hchars hchain
        (fun c hc hcd => hh (hcd ▸ hc)) (fun c hc hcd => hl (hcd ▸ hc))
    have hsplit : (slugify s).splitOn '-' = ws := by
      rw [heq]
      exact List.splitOn_intercalate ws '-'
        (fun w hw hmem => absurd ((hgood w hw).2 '-' hmem) (by decide))
        (hwsne hne)
    rw [matchesSlugPat, hsplit, List.all_eq_true]
    intro g hg
    obtain ⟨hg1, hg2⟩ := hgood g hg
    refine (Bool.and_eq_true _ _).mpr ⟨?_, List.all_eq_true.mpr hg2⟩
    simp [List.isEmpty_iff, hg1]
  · simp +decide [slugify, stripBraces, stripBracesLoop, pyStrip,
      subNonAlnum, collapseDashes, stripDashes]

theorem toLowerCh_fix {c : Char} (h : isLowerAlnum c = true ∨ c = '-') :
    toLowerCh c = c := by
  rcases h with h | rfl
  · rw [toLowerCh, if_neg]
    simp only [isLowerAlnum, Bool.or_eq_true, Bool.and_eq_true, decide_eq_true_eq] at h
    simp only [Bool.and_eq_true, decide_eq_true_eq, not_and]
    omega
  · decide

theorem map_toLowerCh_fix {l : Str} (h : ∀ c ∈ l, isLowerAlnum c = true ∨ c = '-') :
    l.map toLowerCh = l := by
  induction l with
  | nil => rfl
  | cons a t ih =>
    simp only [List.map_cons, List.cons.injEq]
    exact ⟨toLowerCh_fix (h a (List.mem_cons_self a t)),
      ih (fun c hc => h c (List.mem_cons_of_mem a hc))⟩

theorem subNonAlnum_fix :
    ∀ l : Str, (∀ c ∈ l, isLowerAlnum c = true ∨ c = '-') →
      l.Chain' (fun a b => ¬(a = '-' ∧ b = '-')) → subNonAlnum l = l := by
  intro l
  induction l using subNonAlnum.induct with
  | case1 => intro _ _; rfl
  | case2 c hc => intro _ _; rw [subNonAlnum, if_pos hc]
  | case3 c hc =>
    intro hchars _
    rw [subNonAlnum, if_neg hc]
    rcases hchars c (List.mem_cons_self c []) with h | rfl
    · exact absurd h hc
    · rfl
  | case4 a b r ha ih =>
    intro hchars hchain
    rw [subNonAlnum, if_pos ha]
    rw [ih (fun c hc => hchars c (List.mem_cons_of_mem a hc)) hchain.tail]
  | case5 a b r ha hb ih =>
    intro hchars hchain
    rw [subNonAlnum, if_neg ha, if_pos hb]
    rcases hchars a (List.mem_cons_self a _) with h | h
    · exact absurd h ha
    · rw [h]
      rw [ih (fun c hc => hchars c (List.mem_cons_of_mem a hc)) hchain.tail]
  | case6 a b r ha hb ih =>
    intro hchars hchain
    exfalso
    have ha2 : a = '-' := by
      rcases hchars a (List.mem_cons_self a _) with h | h
      · exact absurd h ha
      · exact h
    have hb2 : b = '-' := by
      rcases hchars b (List.mem_cons_of_mem a (List.mem_cons_self b r)) with h | h
      · exact absurd h hb
      · exact h
    exact (List.chain'_cons.mp hchain).1 ⟨ha2, hb2⟩

theorem collapseDashes_fix :
    ∀ l : Str, l.Chain' (fun a b => ¬(a = '-' ∧ b = '-')) → collapseDashes l = l := by
  intro l
  induction l using collapseDashes.induct with
  | case1 => intro _; rfl
  | case2 c => intro _; rfl
  | case3 a b r hab ih =>
    intro hchain
    exfalso
    simp only [Bool.and_eq_true, decide_eq_true_eq] at hab
    exact (List.chain'_cons.mp hchain).1 hab
  | case4 a b r hab ih =>
    intro hchain
    rw [collapseDashes, if_neg hab, ih hchain.tail]

/-- C9: `slugify` is idempotent: for every string input `x`,
`slugify(slugify(x)) = slugify(x)`; hence the batch converter's
re-slugification of an already slugified citekey yields the same
filename. -/
theorem c9_slugify_idempotent (x : Str) : slugify (slugify x) = slugify x := by
  obtain ⟨hne, hchars, hchain, hh, hl⟩ := slugify_facts x
  have hnospace : ∀ c ∈ slugify x, isSpace c = false := by
    intro c hc
    rcases hchars c hc with h | rfl
    · exact isLowerAlnum_not_space h
    · decide
  have hstrip : pyStrip (slugify x) = slugify x :=
    pyStrip_eq_self
      (fun c hc => hnospace c (List.mem_of_mem_head? (Option.mem_def.mpr hc)))
      (fun c hc => hnospace c (mem_of_getLast?_eq hc))
  have hsb : stripBraces (slugify x) = slugify x := by
    rw [stripBraces, hstrip, stripBracesLoop, if_neg]
    intro hcond
    obtain ⟨h1, _, _⟩ := hcond
    have := hchars '\x7b' (List.mem_of_mem_head? (Option.mem_def.mpr h1))
    rcases this with h | h
    · exact absurd h (by decide)
    · exact absurd h (by decide)
  conv_lhs => rw [slugify]
  rw [hstrip, map_toLowerCh_fix hchars, hsb]
  rw [subNonAlnum_fix _ hchars hchain, collapseDashes_fix _ hchain]
  rw [stripDashes_eq_self (fun c hc hcd => hh (hcd ▸ hc)) (fun c hc hcd => hl (hcd ▸ hc))]
  rw [if_neg hne]

/- ------------------------------------------------------------------ -/
/- Month parsing and date formatting                                   -/
/- ------------------------------------------------------------------ -/

theorem assocLookup_month_skip_sept {k : Str} (hk : k.length ≤ 3) :
    assocLookup monthTable k = assocLookup monthAbbrevs k := by
  have hne : ("sept".toList = k) = False := by
    simp only [eq_iff_iff, iff_false]
    intro h
    rw [← h] at hk
    exact absurd hk (by decide)
  simp only [monthTable, monthAbbrevs, assocLookup, hne, if_false]

/-- C7 counterexample: the numeric string `"012"` has three digits, so by
the claim it should resolve through the three-letter-prefix lookup and
default to 1; the code accepts any all-digit string with value in
`[1, 12]` and returns 12. -/
theorem c7_counterexample : parseMonth ("012".toList) = 12 := by decide

/-- C7 (amended): `parse_month` maps a numeric string of any length whose
value lies in `[1, 12]` to its value, and any other input to the month
whose three-letter English prefix equals the first three letters of the
lowercased, trimmed input (so `"September"` and `"Sept"` both resolve to
9); unrecognized or absent input yields 1. -/
theorem c7_parse_month_amended :
    (∀ m : Str, parseMonth m = parseMonthSpec m) ∧
    parseMonth ("September".toList) = 9 ∧ parseMonth ("Sept".toList) = 9 := by
  refine ⟨?_, by decide, by decide⟩
  intro m
  by_cases hm : m = []
  · subst hm; decide
  · rw [parseMonth, if_neg hm, parseMonthSpec]
    have hk3 : ((((pyStrip m).map toLowerCh).take 3).length ≤ 3) := List.length_take_le 3 _
    by_cases hd : ((pyStrip m).map toLowerCh ≠ [] && ((pyStrip m).map toLowerCh).all isDigitCh) = true
    · rw [if_pos hd]
      by_cases hv : (1 ≤ natOfDigits ((pyStrip m).map toLowerCh) &&
          natOfDigits ((pyStrip m).map toLowerCh) ≤ 12) = true
      · rw [if_pos hv, if_pos ((Bool.and_eq_true _ _).mpr ⟨hd, hv⟩)]
      · rw [if_neg hv, if_neg (fun h => hv (((Bool.and_eq_true _ _).mp h).2))]
        rw [assocLookup_month_skip_sept hk3]
    · rw [if_neg hd, if_neg (fun h => hd (((Bool.and_eq_true _ _).mp h).1))]
      rw [assocLookup_month_skip_sept hk3]

/-- C1 evaluation at the failing input: a record whose year field is the
common BibTeX value `"n.d."` is non-empty after cleaning, yet
`format_date` raises `ValueError` from `int("n.d.")` instead of degrading
to a default, contradicting the never-raise design contract. -/
theorem c1_format_date_raises_on_nonnumeric_year :
    formatDate [("year".toList, "n.d.".toList)] = .error () := by
  simp +decide [formatDate, getField, cleanWhitespace, flattenWs, pySplit,
    stripBraces, stripBracesLoop, pyStrip, pyInt, List.intercalate, List.intersperse]

/-- C5 counterexample: the cleaned year `"circa 1900"` is non-empty, so
by the claim `format_date` should return a rendered string; instead the
conversion `int("circa 1900")` raises `ValueError`. -/
theorem c5_counterexample : formatDate [("year".toList, "circa 1900".toList)] = .error () := by
  simp +decide [formatDate, getField, cleanWhitespace, flattenWs, pySplit,
    stripBraces, stripBracesLoop, pyStrip, pyInt, List.intercalate, List.intersperse]

/-- C5 (amended): `format_date` returns `None` exactly when the cleaned
year is empty; when the cleaned year parses as an integer it returns
`YYYY-MM-DD` with the year zero-padded to 4 digits (longer values pass
through), the month from `parse_month`, and the day parsed as an integer
defaulting to 1 on absence or parse failure and clamped into `[1, 31]`;
on any other year it raises.  The claim's two examples evaluate
accordingly. -/
theorem c5_format_date_amended :
    (∀ e : Entry, formatDate e =
      (match formatDateSpec e with
       | none => Except.error ()
       | some r => Except.ok r)) ∧
    formatDate [("year".toList, "2021".toList), ("month".toList, "Sept".toList),
      ("day".toList, "31".toList)] = .ok (some ("2021-09-31".toList)) ∧
    formatDate [("year".toList, "2021".toList)] = .ok (some ("2021-01-01".toList)) := by
  refine ⟨?_, ?_, ?_⟩
  · intro e
    rw [formatDate, formatDateSpec]
    by_cases hy : cleanWhitespace (getField e ("year".toList)) = []
    · rw [if_pos hy, if_pos hy]
    · rw [if_neg hy, if_neg hy]
      cases hpi : pyInt (cleanWhitespace (getField e ("year".toList))) with
      | none => rfl
      | some y =>
        have hnil : pyInt ([] : Str) = none := by decide
        by_cases hd : cleanWhitespace (getField e ['d', 'a', 'y']) = []
        · simp [hd, hnil]
        · simp [hd]
  · simp +decide [formatDate, getField, cleanWhitespace, flattenWs, pySplit,
      stripBraces, stripBracesLoop, pyStrip, pyInt, parseMonth, assocLookup,
      monthTable, natOfDigits, fmtInt, padZeros, natToDigits, natToDigitsAux, digitCh,
      List.intercalate, List.intersperse]
  · simp +decide [formatDate, getField, cleanWhitespace, flattenWs, pySplit,
      stripBraces, stripBracesLoop, pyStrip, pyInt, parseMonth, assocLookup,
      monthTable, natOfDigits, fmtInt, padZeros, natToDigits, natToDigitsAux, digitCh,
      List.intercalate, List.intersperse]

/- ------------------------------------------------------------------ -/
/- Metadata projection                                                 -/
/- ------------------------------------------------------------------ -/

/-- C8: every surviving metadata field is projected exactly as the claim
describes: skip the five exact lowercase core keys and empty cleaned
values; rename case-insensitive `url`/`howpublished`/`external` to
`external`, stripping a literal `\url\x7b...\x7d` wrapper with the inner
content trimmed; keep the original name otherwise; escape every literal
`%` as `\%`.  The claim's example: a field named `URL` with a wrapped
value is renamed and stripped, and a `%` in a value is escaped. -/
theorem c8_meta_projection :
    (∀ e : Entry, metaPairs e = e.filterMap projectFieldSpec) ∧
    metaPairs [("URL".toList, ('\\' :: "url\x7bhttps://x\x7d".toList)),
               ("note".toList, "50% off".toList)] =
      [("external".toList, "https://x".toList),
       ("note".toList, "50\\% off".toList)] := by
  constructor
  · intro e
    induction e with
    | nil => rfl
    | cons fv rest ih =>
      obtain ⟨f, v⟩ := fv
      rw [List.filterMap_cons]
      by_cases hskip : f ∈ skipKeys
      · have hs : projectFieldSpec (f, v) = none := by
          rw [projectFieldSpec, if_pos (by simpa [skipKeys] using hskip)]
        rw [hs, metaPairs, if_pos hskip, ih]
      · have hskip2 : ¬(f = "title".toList ∨ f = "author".toList ∨ f = "year".toList ∨
            f = "month".toList ∨ f = "day".toList) := by
          simpa [skipKeys] using hskip
        by_cases hcl : cleanWhitespace (some v) = []
        · have hs : projectFieldSpec (f, v) = none := by
            rw [projectFieldSpec, if_neg hskip2, if_pos hcl]
          rw [hs, metaPairs, if_neg hskip]
          simp [hcl, ih]
        · by_cases hurl : f.map toLowerCh ∈ urlFields
          · have hurl2 : f.map toLowerCh = "url".toList ∨
                f.map toLowerCh = "howpublished".toList ∨
                f.map toLowerCh = "external".toList := by
              simpa [urlFields] using hurl
            have hs : projectFieldSpec (f, v) =
                some ("external".toList,
                  escapeMetaValue (stripUrlCommand (cleanWhitespace (some v)))) := by
              rw [projectFieldSpec, if_neg hskip2, if_neg hcl, if_pos hurl2]
            rw [hs, metaPairs, if_neg hskip]
            simp [hcl, hurl, ih]
          · have hurl2 : ¬(f.map toLowerCh = "url".toList ∨
                f.map toLowerCh = "howpublished".toList ∨
                f.map toLowerCh = "external".toList) := by
              simpa [urlFields] using hurl
            have hfne : (f = ['e', 'x', 't', 'e', 'r', 'n', 'a', 'l']) = False := by
              simp only [eq_iff_iff, iff_false]
              intro hf
              apply hurl
              rw [hf]
              decide
            have hs : projectFieldSpec (f, v) =
                some (f, escapeMetaValue (cleanWhitespace (some v))) := by
              rw [projectFieldSpec, if_neg hskip2, if_neg hcl, if_neg hurl2]
            rw [hs, metaPairs, if_neg hskip]
            simp [hcl, hurl, hfne, ih]
  · simp +decide [metaPairs, skipKeys, urlFields, cleanWhitespace, flattenWs,
      pySplit, stripBraces, stripBracesLoop, pyStrip, stripUrlCommand, urlMarker,
      escapeMetaValue, toLowerCh, List.intercalate, List.intersperse]

/- ------------------------------------------------------------------ -/
/- Percent escaping                                                     -/
/- ------------------------------------------------------------------ -/

theorem escapeMetaValue_head (l : Str) : (escapeMetaValue l).head? ≠ some '%' := by
  cases l with
  | nil => simp [escapeMetaValue]
  | cons c r =>
    by_cases hc : c = '%' <;> simp [escapeMetaValue, hc]

theorem percentEscapedPairs_cons {x : Char} {l : Str}
    (h : percentEscapedPairs (escapeMetaValue l) = true) :
    percentEscapedPairs (x :: escapeMetaValue l) = true := by
  cases he : escapeMetaValue l with
  | nil => rfl
  | cons b t =>
    rw [percentEscapedPairs]
    rw [he] at h
    have hb : b ≠ '%' := by
      have := escapeMetaValue_head l
      rw [he] at this
      simpa using this
    simp [hb, h]

theorem percentEscapedPairs_escape (l : Str) :
    percentEscapedPairs (escapeMetaValue l) = true := by
  induction l with
  | nil => rfl
  | cons c r ih =>
    by_cases hc : c = '%'
    · subst hc
      rw [escapeMetaValue, if_pos rfl]
      have h1 : percentEscapedPairs ('%' :: escapeMetaValue r) = true :=
        percentEscapedPairs_cons ih
      cases he : escapeMetaValue r with
      | nil => rfl
      | cons b t =>
        rw [he] at h1
        rw [percentEscapedPairs]
        simp [h1]
    · rw [escapeMetaValue, if_neg hc]
      exact percentEscapedPairs_cons ih

theorem percentEscaped_escape (l : Str) : percentEscaped (escapeMetaValue l) = true := by
  rw [percentEscaped]
  have h1 := escapeMetaValue_head l
  have h2 := percentEscapedPairs_escape l
  simp [h1, h2]

theorem mem_metaPairs_escaped :
    ∀ e : Entry, ∀ k v : Str, (k, v) ∈ metaPairs e → ∃ u, v = escapeMetaValue u := by
  intro e
  induction e with
  | nil => intro k v hv; simp [metaPairs] at hv
  | cons fv rest ih =>
    obtain ⟨f, w⟩ := fv
    intro k v hv
    rw [metaPairs] at hv
    by_cases hskip : f ∈ skipKeys
    · rw [if_pos hskip] at hv
      exact ih k v hv
    · rw [if_neg hskip] at hv
      by_cases hcl : cleanWhitespace (some w) = []
      · rw [if_pos hcl] at hv
        exact ih k v hv
      · rw [if_neg hcl] at hv
        rcases List.mem_cons.mp hv with heq | hv
        · have hv2 := (Prod.mk.injEq _ _ _ _ ▸ heq).2
          exact ⟨_, hv2⟩
        · exact ih k v hv

theorem countCh_append (c : Char) (a b : Str) :
    countCh c (a ++ b) = countCh c a + countCh c b := by
  simp [countCh, List.count_append]

/-- C10: a literal `%` in the cleaned title or author value is embedded
verbatim and unescaped in the title/author line (the value is an infix of
the line, the line's `%` count equals the value's, and the only added
backslash is the leading command marker), whereas every metadata value is
rendered with each `%` escaped by a preceding backslash. -/
theorem c10_percent_escaping_only_metadata (e : Entry) :
    (countCh '%' (titleLine e) = countCh '%' (titleValue e) ∧
     titleValue e <:+: titleLine e ∧
     countCh '\\' (titleLine e) = countCh '\\' (titleValue e) + 1) ∧
    (∀ a, formatAuthors (getField e ("author".toList)) = some a →
      countCh '%' (authorLine a) = countCh '%' a ∧ a <:+: authorLine a ∧
      countCh '\\' (authorLine a) = countCh '\\' a + 1) ∧
    (∀ k v, (k, v) ∈ metaPairs e → percentEscaped v = true) := by
  have ht0 : countCh '%' ('\\' :: "title\x7b".toList) = 0 := by decide
  have ht1 : countCh '\\' ('\\' :: "title\x7b".toList) = 1 := by decide
  have ha0 : countCh '%' ('\\' :: "author/literal\x7b".toList) = 0 := by decide
  have ha1 : countCh '\\' ('\\' :: "author/literal\x7b".toList) = 1 := by decide
  have hc0 : countCh '%' (['\x7d'] : Str) = 0 := by decide
  have hc1 : countCh '\\' (['\x7d'] : Str) = 0 := by decide
  refine ⟨⟨?_, ?_, ?_⟩, ?_, ?_⟩
  · rw [titleLine, countCh_append, countCh_append, ht0, hc0]
    omega
  · exact ⟨'\\' :: "title\x7b".toList, ['\x7d'], by simp [titleLine]⟩
  · rw [titleLine, countCh_append, countCh_append, ht1, hc1]
    omega
  · intro a _
    refine ⟨?_, ⟨'\\' :: "author/literal\x7b".toList, ['\x7d'], by simp [authorLine]⟩, ?_⟩
    · rw [authorLine, countCh_append, countCh_append, ha0, hc0]
      omega
    · rw [authorLine, countCh_append, countCh_append, ha1, hc1]
      omega
  · intro k v hv
    obtain ⟨u, rfl⟩ := mem_metaPairs_escaped e k v hv
    exact percentEscaped_escape u

/- ------------------------------------------------------------------ -/
/- Character inventories of the rendered fields                        -/
/- ------------------------------------------------------------------ -/

theorem clean_no_newline {v : Option Str} {c : Char}
    (h : c ∈ cleanWhitespace v) : c ≠ '\n' := by
  match v with
  | none => simp [cleanWhitespace] at h
  | some s =>
    rw [cleanWhitespace] at h
    by_cases hs : s = []
    · rw [if_pos hs] at h; simp at h
    · rw [if_neg hs] at h
      exact flattenWs_no_newline ((stripBraces_within _).sublist.subset h)

theorem escapeMetaValue_subset {l : Str} {c : Char}
    (h : c ∈ escapeMetaValue l) : c ∈ l ∨ c = '\\' := by
  induction l with
  | nil => simp [escapeMetaValue] at h
  | cons a r ih =>
    rw [escapeMetaValue] at h
    by_cases ha : a = '%'
    · rw [if_pos ha] at h
      rcases List.mem_cons.mp h with rfl | h
      · exact Or.inr rfl
      · rcases List.mem_cons.mp h with rfl | h
        · exact Or.inl (ha ▸ List.mem_cons_self a r)
        · rcases ih h with h2 | h2
          · exact Or.inl (List.mem_cons_of_mem a h2)
          · exact Or.inr h2
    · rw [if_neg ha] at h
      rcases List.mem_cons.mp h with rfl | h
      · exact Or.inl (List.mem_cons_self c r)
      · rcases ih h with h2 | h2
        · exact Or.inl (List.mem_cons_of_mem a h2)
        · exact Or.inr h2

theorem stripUrlCommand_subset {l : Str} {c : Char}
    (h : c ∈ stripUrlCommand l) : c ∈ l := by
  rw [stripUrlCommand] at h
  by_cases hc : (urlMarker.isPrefixOf (pyStrip l) && (pyStrip l).getLast? = some '\x7d') = true
  · rw [if_pos hc] at h
    have h1 := mem_pyStrip h
    have h2 := List.dropLast_subset _ h1
    have h3 := List.drop_subset 5 _ h2
    exact mem_pyStrip h3
  · rw [if_neg hc] at h
    exact mem_pyStrip h

theorem splitAnd_subset :
    ∀ l : Str, ∀ w ∈ splitAnd l, ∀ c ∈ w, c ∈ l := by
  intro l
  induction l using splitAnd.induct with
  | case1 =>
    intro w hw d hd
    rw [splitAnd] at hw
    rcases List.mem_singleton.mp hw with rfl
    simp at hd
  | case2 c rest hpre ih =>
    intro w hw d hd
    rw [splitAnd, if_pos hpre] at hw
    rcases List.mem_cons.mp hw with rfl | hw
    · simp at hd
    · exact List.drop_subset _ _ (ih w hw d hd)
  | case3 c rest hpre hnil ih =>
    intro w hw d hd
    rw [splitAnd, if_neg hpre, hnil] at hw
    rcases List.mem_singleton.mp hw with rfl
    rcases List.mem_singleton.mp hd with rfl
    exact List.mem_cons_self _ _
  | case4 c rest hpre w0 ws hcons ih =>
    intro w hw d hd
    rw [splitAnd, if_neg hpre, hcons] at hw
    rcases List.mem_cons.mp hw with rfl | hw
    · rcases List.mem_cons.mp hd with rfl | hd
      · exact List.mem_cons_self _ _
      · exact List.mem_cons_of_mem c (ih w0 (hcons ▸ List.mem_cons_self w0 ws) d hd)
    · exact List.mem_cons_of_mem c (ih w (hcons ▸ List.mem_cons_of_mem w0 hw) d hd)

theorem mem_intercalate_gen {s : Str} {c : Char} {ws : List Str}
    (h : c ∈ List.intercalate s ws) : (∃ w ∈ ws, c ∈ w) ∨ c ∈ s := by
  induction ws with
  | nil => simp [List.intercalate] at h
  | cons w ws ih =>
    cases ws with
    | nil =>
      have h' : c ∈ w := by simpa [List.intercalate, List.intersperse] using h
      exact Or.inl ⟨w, List.mem_cons_self w [], h'⟩
    | cons w2 ws' =>
      rw [intercalate_cons_of_ne_nil (by simp)] at h
      rcases List.mem_append.mp h with h1 | h2
      · rcases List.mem_append.mp h1 with h3 | h4
        · exact Or.inl ⟨w, List.mem_cons_self w _, h3⟩
        · exact Or.inr h4
      · rcases ih h2 with ⟨w', hw', hc⟩ | hs
        · exact Or.inl ⟨w', List.mem_cons_of_mem w hw', hc⟩
        · exact Or.inr hs

theorem formatAuthors_chars {v : Option Str} {a : Str} {c : Char}
    (h : formatAuthors v = some a) (hc : c ∈ a) : c ∈ cleanWhitespace v ∨ c = ',' ∨ c = ' ' := by
  rw [formatAuthors] at h
  by_cases hr : cleanWhitespace v = []
  · rw [if_pos hr] at h; simp at h
  · rw [if_neg hr] at h
    by_cases ha : ((splitAnd (cleanWhitespace v)).map pyStrip).filter (fun p => p ≠ []) = []
    · rw [if_pos ha] at h; simp at h
    · rw [if_neg ha] at h
      simp only [Option.some.injEq] at h
      subst h
      rcases mem_intercalate_gen hc with ⟨w, hw, hcw⟩ | hs
      · have hw2 := List.mem_filter.mp hw
        obtain ⟨p, hp, hps⟩ := List.mem_map.mp hw2.1
        subst hps
        exact Or.inl (splitAnd_subset _ p hp c (mem_pyStrip hcw))
      · rcases List.mem_cons.mp hs with rfl | hs
        · exact Or.inr (Or.inl rfl)
        · rcases List.mem_singleton.mp hs with rfl
          exact Or.inr (Or.inr rfl)

theorem formatAuthors_ne_nil {v : Option Str} {a : Str}
    (h : formatAuthors v = some a) : a ≠ [] := by
  rw [formatAuthors] at h
  by_cases hr : cleanWhitespace v = []
  · rw [if_pos hr] at h; simp at h
  · rw [if_neg hr] at h
    by_cases ha : ((splitAnd (cleanWhitespace v)).map pyStrip).filter (fun p => p ≠ []) = []
    · rw [if_pos ha] at h; simp at h
    · rw [if_neg ha] at h
      simp only [Option.some.injEq] at h
      subst h
      cases hl : ((splitAnd (cleanWhitespace v)).map pyStrip).filter (fun p => p ≠ []) with
      | nil => exact absurd hl ha
      | cons p ps =>
        have hp : p ≠ [] := by
          have := List.mem_filter.mp (hl ▸ List.mem_cons_self p ps)
          simpa using this.2
        obtain ⟨c0, p', rfl⟩ : ∃ c0 p', p = c0 :: p' := by
          cases p with
          | nil => simp at hp
          | cons c0 p' => exact ⟨c0, p', rfl⟩
        cases ps with
        | nil => simp [List.intercalate, List.intersperse]
        | cons q qs =>
          rw [intercalate_cons_of_ne_nil (by simp)]
          simp

theorem natToDigitsAux_digits :
    ∀ fuel n : Nat, ∀ c ∈ natToDigitsAux fuel n, isDigitCh c = true := by
  intro fuel
  induction fuel with
  | zero => intro n c hc; simp [natToDigitsAux] at hc
  | succ f ih =>
    intro n c hc
    rw [natToDigitsAux] at hc
    have hdig : ∀ d : Nat, isDigitCh (digitCh d) = true := by
      intro d
      have hlt : 48 + d % 10 < 55296 := by omega
      simp only [isDigitCh, digitCh, Bool.and_eq_true, decide_eq_true_eq]
      rw [toNat_ofNat_of_lt hlt]
      omega
    by_cases hn : n < 10
    · rw [if_pos hn] at hc
      rcases List.mem_singleton.mp hc with rfl
      exact hdig n
    · rw [if_neg hn] at hc
      rcases List.mem_append.mp hc with h1 | h2
      · exact ih _ c h1
      · rcases List.mem_singleton.mp h2 with rfl
        exact hdig _

theorem fmtInt_chars {w : Nat} {v : Int} {c : Char} (h : c ∈ fmtInt w v) :
    isDigitCh c = true ∨ c = '-' ∨ c = '0' := by
  rw [fmtInt] at h
  by_cases hv : v < 0
  · rw [if_pos hv] at h
    rcases List.mem_cons.mp h with rfl | h
    · exact Or.inr (Or.inl rfl)
    · rw [padZeros] at h
      rcases List.mem_append.mp h with h1 | h2
      · exact Or.inr (Or.inr (List.eq_of_mem_replicate h1))
      · exact Or.inl (natToDigitsAux_digits _ _ c h2)
  · rw [if_neg hv, padZeros] at h
    rcases List.mem_append.mp h with h1 | h2
    · exact Or.inr (Or.inr (List.eq_of_mem_replicate h1))
    · exact Or.inl (natToDigitsAux_digits _ _ c h2)

theorem fmtInt_ne_nil (w : Nat) (v : Int) : fmtInt w v ≠ [] := by
  have hne : ∀ f n : Nat, 0 < f → natToDigitsAux f n ≠ [] := by
    intro f n hf
    cases f with
    | zero => simp at hf
    | succ f =>
      rw [natToDigitsAux]
      by_cases hn : n < 10
      · rw [if_pos hn]; simp
      · rw [if_neg hn]; simp
  rw [fmtInt]
  by_cases hv : v < 0
  · rw [if_pos hv]; simp
  · rw [if_neg hv, padZeros]
    intro hcontra
    exact hne _ _ (by omega) (List.append_eq_nil.mp hcontra).2

theorem formatDate_some_chars {e : Entry} {d : Str}
    (h : formatDate e = .ok (some d)) :
    ∀ c ∈ d, isDigitCh c = true ∨ c = '-' ∨ c = '0' := by
  rw [formatDate] at h
  by_cases hy : cleanWhitespace (getField e ("year".toList)) = []
  · rw [if_pos hy] at h; simp at h
  · rw [if_neg hy] at h
    cases hpi : pyInt (cleanWhitespace (getField e ("year".toList))) with
    | none => rw [hpi] at h; exact absurd h (by simp)
    | some y =>
      rw [hpi] at h
      simp only [Except.ok.injEq, Option.some.injEq] at h
      subst h
      intro c hc
      rcases List.mem_append.mp hc with h1 | h2
      · rcases List.mem_append.mp h1 with h1a | h1b
        · exact fmtInt_chars h1a
        · rcases List.mem_cons.mp h1b with rfl | h1c
          · exact Or.inr (Or.inl rfl)
          · exact fmtInt_chars h1c
      · rcases List.mem_cons.mp h2 with rfl | h3
        · exact Or.inr (Or.inl rfl)
        · exact fmtInt_chars h3

theorem formatDate_some_ne_nil {e : Entry} {d : Str}
    (h : formatDate e = .ok (some d)) : d ≠ [] := by
  rw [formatDate] at h
  by_cases hy : cleanWhitespace (getField e ("year".toList)) = []
  · rw [if_pos hy] at h; simp at h
  · rw [if_neg hy] at h
    cases hpi : pyInt (cleanWhitespace (getField e ("year".toList))) with
    | none => rw [hpi] at h; exact absurd h (by simp)
    | some y =>
      rw [hpi] at h
      simp only [Except.ok.injEq, Option.some.injEq] at h
      subst h
      intro hcontra
      exact fmtInt_ne_nil 4 y
        (List.append_eq_nil.mp (List.append_eq_nil.mp hcontra).1).1

/- ------------------------------------------------------------------ -/
/- Document structure                                                  -/
/- ------------------------------------------------------------------ -/

theorem buildLines_normal {e : Entry} {dopt : Option Str}
    (hd : formatDate e = .ok dopt) :
    buildLines e = .ok ([titleLine e, taxonLine] ++ authorOptLines e ++
      dateOptLines dopt ++ metaLines e ++ [[]]) := by
  rw [buildLines, hd]
  cases ha : formatAuthors (getField e ['a', 'u', 't', 'h', 'o', 'r']) with
  | none =>
    cases dopt with
    | none => simp [authorOptLines, dateOptLines, metaLines, ha]
    | some d =>
      have hne := formatDate_some_ne_nil hd
      simp [authorOptLines, dateOptLines, metaLines, ha, hne]
  | some a =>
    have hane := formatAuthors_ne_nil ha
    cases dopt with
    | none => simp [authorOptLines, dateOptLines, metaLines, ha, hane]
    | some d =>
      have hne := formatDate_some_ne_nil hd
      simp [authorOptLines, dateOptLines, metaLines, ha, hane, hne]

theorem titleLine_no_newline (e : Entry) : '\n' ∉ titleLine e := by
  intro h
  rw [titleLine] at h
  rcases List.mem_append.mp h with h1 | h2
  · rcases List.mem_append.mp h1 with h1a | h1b
    · exact absurd h1a (by decide)
    · rw [titleValue] at h1b
      by_cases ht : cleanWhitespace (getField e ("title".toList)) = []
      · rw [if_pos ht] at h1b; exact absurd h1b (by decide)
      · rw [if_neg ht] at h1b; exact clean_no_newline h1b rfl
  · exact absurd h2 (by decide)

theorem authorLine_no_newline {e : Entry} {a : Str}
    (ha : formatAuthors (getField e ("author".toList)) = some a) :
    '\n' ∉ authorLine a := by
  intro h
  rw [authorLine] at h
  rcases List.mem_append.mp h with h1 | h2
  · rcases List.mem_append.mp h1 with h1a | h1b
    · exact absurd h1a (by decide)
    · rcases formatAuthors_chars ha h1b with hc | hc | hc
      · exact clean_no_newline hc rfl
      · exact absurd hc (by decide)
      · exact absurd hc (by decide)
  · exact absurd h2 (by decide)

theorem dateLine_no_newline {e : Entry} {d : Str}
    (hd : formatDate e = .ok (some d)) : '\n' ∉ dateLine d := by
  intro h
  rw [dateLine] at h
  rcases List.mem_append.mp h with h1 | h2
  · rcases List.mem_append.mp h1 with h1a | h1b
    · exact absurd h1a (by decide)
    · rcases formatDate_some_chars hd '\n' h1b with hc | hc | hc
      · exact absurd hc (by decide)
      · exact absurd hc (by decide)
      · exact absurd hc (by decide)
  · exact absurd h2 (by decide)

theorem mem_metaPairs_no_newline {e : Entry} (hk : ∀ p ∈ e, '\n' ∉ p.1) :
    ∀ k v : Str, (k, v) ∈ metaPairs e → '\n' ∉ k ∧ '\n' ∉ v := by
  induction e with
  | nil => intro k v hv; simp [metaPairs] at hv
  | cons fv rest ih =>
    obtain ⟨f, w⟩ := fv
    intro k v hv
    rw [metaPairs] at hv
    have hk' : ∀ p ∈ rest, '\n' ∉ p.1 := fun p hp => hk p (List.mem_cons_of_mem _ hp)
    by_cases hskip : f ∈ skipKeys
    · rw [if_pos hskip] at hv; exact ih hk' k v hv
    · rw [if_neg hskip] at hv
      by_cases hcl : cleanWhitespace (some w) = []
      · rw [if_pos hcl] at hv; exact ih hk' k v hv
      · rw [if_neg hcl] at hv
        rcases List.mem_cons.mp hv with heq | hv
        · have h1 := (Prod.mk.injEq _ _ _ _ ▸ heq).1
          have h2 := (Prod.mk.injEq _ _ _ _ ▸ heq).2
          constructor
          · rw [h1]
            by_cases hurl : f.map toLowerCh ∈ urlFields
            · rw [if_pos hurl]; decide
            · rw [if_neg hurl]; exact hk (f, w) (List.mem_cons_self _ _)
          · rw [h2]
            intro hmem
            rcases escapeMetaValue_subset hmem with hm | hm
            · by_cases hext :
                  (if f.map toLowerCh ∈ urlFields then "external".toList else f) =
                    "external".toList
              · rw [if_pos hext] at hm
                exact clean_no_newline (stripUrlCommand_subset hm) rfl
              · rw [if_neg hext] at hm
                exact clean_no_newline hm rfl
            · exact absurd hm (by decide)
        · exact ih hk' k v hv

theorem metaLines_no_newline {e : Entry} (hk : ∀ p ∈ e, '\n' ∉ p.1) :
    ∀ l ∈ metaLines e, '\n' ∉ l := by
  intro l hl hmem
  rw [metaLines] at hl
  obtain ⟨p, hp, rfl⟩ := List.mem_map.mp hl
  obtain ⟨k, v⟩ := p
  have hpm := (List.mem_filter.mp hp).1
  obtain ⟨hnk, hnv⟩ := mem_metaPairs_no_newline hk k v hpm
  rw [metaLine] at hmem
  rcases List.mem_append.mp hmem with h1 | h2
  · rcases List.mem_append.mp h1 with h1a | h1b
    · rcases List.mem_append.mp h1a with h1c | h1d
      · exact absurd h1c (by decide)
      · exact hnk h1d
    · rcases List.mem_cons.mp h1b with h3 | h3
      · exact absurd h3 (by decide)
      · rcases List.mem_cons.mp h3 with h4 | h4
        · exact absurd h4 (by decide)
        · exact hnv h4
  · exact absurd h2 (by decide)

theorem lines_no_newline {e : Entry} {dopt : Option Str}
    (hk : ∀ p ∈ e, '\n' ∉ p.1) (hd : formatDate e = .ok dopt) :
    ∀ l ∈ [titleLine e, taxonLine] ++ authorOptLines e ++
      dateOptLines dopt ++ metaLines e ++ [[]], ('\n') ∉ l := by
  intro l hl
  rcases List.mem_append.mp hl with h1 | h1
  · rcases List.mem_append.mp h1 with h2 | h2
    · rcases List.mem_append.mp h2 with h3 | h3
      · rcases List.mem_append.mp h3 with h4 | h4
        · rcases List.mem_cons.mp h4 with rfl | h5
          · exact titleLine_no_newline e
          · rcases List.mem_singleton.mp h5 with rfl
            decide
        · rw [authorOptLines] at h4
          cases ha : formatAuthors (getField e ("author".toList)) with
          | none => rw [ha] at h4; simp at h4
          | some a =>
            rw [ha] at h4
            rcases List.mem_singleton.mp h4 with rfl
            exact authorLine_no_newline ha
      · cases dopt with
        | none => simp [dateOptLines] at h3
        | some d =>
          rw [dateOptLines] at h3
          rcases List.mem_singleton.mp h3 with rfl
          exact dateLine_no_newline hd
    · exact metaLines_no_newline hk l h2
  · rcases List.mem_singleton.mp h1 with rfl
    simp

/- Prefix recognition and mutual exclusion of the rendered line kinds. -/

theorem isPrefixOf_self_append (p x : Str) : p.isPrefixOf (p ++ x) = true := by
  rw [ List.isPrefixOf_iff_prefix]
  exact ⟨x, rfl⟩

theorem isPrefixOf_false_of_char (p b x : Str) (i : Nat) (c1 c2 : Char)
    (h1 : p[i]? = some c1) (h2 : b[i]? = some c2) (hne : c1 ≠ c2) :
    p.isPrefixOf (b ++ x) = false := by
  cases hp : p.isPrefixOf (b ++ x)
  · rfl
  · exfalso
    have hpre : p <+: b ++ x := ( List.isPrefixOf_iff_prefix).mp hp
    obtain ⟨t, ht⟩ := hpre
    have hip : i < p.length := by
      rcases List.getElem?_eq_some_iff.mp h1 with ⟨h, _⟩
      exact h
    have hib : i < b.length := by
      rcases List.getElem?_eq_some_iff.mp h2 with ⟨h, _⟩
      exact h
    have e1 : (b ++ x)[i]? = some c2 := by
      rw [List.getElem?_append_left hib]; exact h2
    have e2 : (b ++ x)[i]? = some c1 := by
      rw [← ht, List.getElem?_append_left hip]; exact h1
    rw [e1] at e2
    injection e2 with e3
    exact hne e3.symm

theorem ne_of_char (l1 l2 : Str) (i : Nat) (c1 c2 : Char)
    (h1 : l1[i]? = some c1) (h2 : l2[i]? = some c2) (hne : c1 ≠ c2) : l1 ≠ l2 := by
  intro he
  rw [he, h2] at h1
  injection h1 with h3
  exact hne h3.symm

theorem isTitleLn_titleLine (e : Entry) : isTitleLn (titleLine e) = true := by
  rw [isTitleLn, titleLine, List.append_assoc]
  exact isPrefixOf_self_append _ _

theorem isAuthorLn_authorLine (a : Str) : isAuthorLn (authorLine a) = true := by
  rw [isAuthorLn, authorLine, List.append_assoc]
  exact isPrefixOf_self_append _ _

theorem isDateLn_dateLine (d : Str) : isDateLn (dateLine d) = true := by
  rw [isDateLn, dateLine, List.append_assoc]
  exact isPrefixOf_self_append _ _

theorem isMetaLn_metaLine (k v : Str) : isMetaLn (metaLine k v) = true := by
  rw [isMetaLn, metaLine, List.append_assoc, List.append_assoc]
  exact isPrefixOf_self_append _ _

theorem isTitleLn_authorLine (a : Str) : isTitleLn (authorLine a) = false := by
  rw [isTitleLn, authorLine, List.append_assoc]
  exact isPrefixOf_false_of_char _ _ _ 1 't' 'a' (by decide) (by decide) (by decide)

theorem isTitleLn_dateLine (d : Str) : isTitleLn (dateLine d) = false := by
  rw [isTitleLn, dateLine, List.append_assoc]
  exact isPrefixOf_false_of_char _ _ _ 1 't' 'd' (by decide) (by decide) (by decide)

theorem isTitleLn_metaLine (k v : Str) : isTitleLn (metaLine k v) = false := by
  rw [isTitleLn, metaLine, List.append_assoc, List.append_assoc]
  exact isPrefixOf_false_of_char _ _ _ 1 't' 'm' (by decide) (by decide) (by decide)

theorem isAuthorLn_titleLine (e : Entry) : isAuthorLn (titleLine e) = false := by
  rw [isAuthorLn, titleLine, List.append_assoc]
  exact isPrefixOf_false_of_char _ _ _ 1 'a' 't' (by decide) (by decide) (by decide)

theorem isAuthorLn_dateLine (d : Str) : isAuthorLn (dateLine d) = false := by
  rw [isAuthorLn, dateLine, List.append_assoc]
  exact isPrefixOf_false_of_char _ _ _ 1 'a' 'd' (by decide) (by decide) (by decide)

theorem isAuthorLn_metaLine (k v : Str) : isAuthorLn (metaLine k v) = false := by
  rw [isAuthorLn, metaLine, List.append_assoc, List.append_assoc]
  exact isPrefixOf_false_of_char _ _ _ 1 'a' 'm' (by decide) (by decide) (by decide)

theorem isDateLn_titleLine (e : Entry) : isDateLn (titleLine e) = false := by
  rw [isDateLn, titleLine, List.append_assoc]
  exact isPrefixOf_false_of_char _ _ _ 1 'd' 't' (by decide) (by decide) (by decide)

theorem isDateLn_authorLine (a : Str) : isDateLn (authorLine a) = false := by
  rw [isDateLn, authorLine, List.append_assoc]
  exact isPrefixOf_false_of_char _ _ _ 1 'd' 'a' (by decide) (by decide) (by decide)

theorem isDateLn_metaLine (k v : Str) : isDateLn (metaLine k v) = false := by
  rw [isDateLn, metaLine, List.append_assoc, List.append_assoc]
  exact isPrefixOf_false_of_char _ _ _ 1 'd' 'm' (by decide) (by decide) (by decide)

theorem isMetaLn_titleLine (e : Entry) : isMetaLn (titleLine e) = false := by
  rw [isMetaLn, titleLine, List.append_assoc]
  exact isPrefixOf_false_of_char _ _ _ 1 'm' 't' (by decide) (by decide) (by decide)

theorem isMetaLn_authorLine (a : Str) : isMetaLn (authorLine a) = false := by
  rw [isMetaLn, authorLine, List.append_assoc]
  exact isPrefixOf_false_of_char _ _ _ 1 'm' 'a' (by decide) (by decide) (by decide)

theorem isMetaLn_dateLine (d : Str) : isMetaLn (dateLine d) = false := by
  rw [isMetaLn, dateLine, List.append_assoc]
  exact isPrefixOf_false_of_char _ _ _ 1 'm' 'd' (by decide) (by decide) (by decide)

theorem titleLine_getElem2 (e : Entry) : (titleLine e)[2]? = some 'i' := by
  rw [titleLine, List.append_assoc, List.getElem?_append_left (by decide)]
  rfl

theorem authorLine_getElem1 (a : Str) : (authorLine a)[1]? = some 'a' := by
  rw [authorLine, List.append_assoc, List.getElem?_append_left (by decide)]
  rfl

theorem dateLine_getElem1 (d : Str) : (dateLine d)[1]? = some 'd' := by
  rw [dateLine, List.append_assoc, List.getElem?_append_left (by decide)]
  rfl

theorem metaLine_getElem1 (k v : Str) : (metaLine k v)[1]? = some 'm' := by
  rw [metaLine, List.append_assoc, List.append_assoc,
    List.getElem?_append_left (by decide)]
  rfl

theorem isTaxonLn_titleLine (e : Entry) : isTaxonLn (titleLine e) = false := by
  rw [isTaxonLn]
  exact decide_eq_false
    (ne_of_char _ _ 2 'i' 'a' (titleLine_getElem2 e) (by decide) (by decide))

theorem isTaxonLn_authorLine (a : Str) : isTaxonLn (authorLine a) = false := by
  rw [isTaxonLn]
  exact decide_eq_false
    (ne_of_char _ _ 1 'a' 't' (authorLine_getElem1 a) (by decide) (by decide))

theorem isTaxonLn_dateLine (d : Str) : isTaxonLn (dateLine d) = false := by
  rw [isTaxonLn]
  exact decide_eq_false
    (ne_of_char _ _ 1 'd' 't' (dateLine_getElem1 d) (by decide) (by decide))

theorem isTaxonLn_metaLine (k v : Str) : isTaxonLn (metaLine k v) = false := by
  rw [isTaxonLn]
  exact decide_eq_false
    (ne_of_char _ _ 1 'm' 't' (metaLine_getElem1 k v) (by decide) (by decide))

theorem mem_authorOptLines {e : Entry} {l : Str} (h : l ∈ authorOptLines e) :
    ∃ a, formatAuthors (getField e ("author".toList)) = some a ∧ l = authorLine a := by
  rw [authorOptLines] at h
  cases ha : formatAuthors (getField e ("author".toList)) with
  | none => rw [ha] at h; simp at h
  | some a => rw [ha] at h; exact ⟨a, rfl, List.mem_singleton.mp h⟩

theorem mem_dateOptLines {dopt : Option Str} {l : Str} (h : l ∈ dateOptLines dopt) :
    ∃ d, dopt = some d ∧ l = dateLine d := by
  cases dopt with
  | none => simp [dateOptLines] at h
  | some d =>
    rw [dateOptLines] at h
    exact ⟨d, rfl, List.mem_singleton.mp h⟩

theorem mem_metaLines_shape {e : Entry} {l : Str} (h : l ∈ metaLines e) :
    ∃ k v, l = metaLine k v := by
  rw [metaLines] at h
  obtain ⟨p, _, rfl⟩ := List.mem_map.mp h
  exact ⟨p.1, p.2, rfl⟩

theorem countP_authorOpt_zero {e : Entry} {p : Str → Bool}
    (hp : ∀ a, p (authorLine a) = false) : (authorOptLines e).countP p = 0 := by
  apply List.countP_eq_zero.mpr
  intro l hl
  obtain ⟨a, _, rfl⟩ := mem_authorOptLines hl
  simp [hp a]

theorem countP_dateOpt_zero {dopt : Option Str} {p : Str → Bool}
    (hp : ∀ d, p (dateLine d) = false) : (dateOptLines dopt).countP p = 0 := by
  apply List.countP_eq_zero.mpr
  intro l hl
  obtain ⟨d, _, rfl⟩ := mem_dateOptLines hl
  simp [hp d]

theorem countP_metaLines_zero {e : Entry} {p : Str → Bool}
    (hp : ∀ k v, p (metaLine k v) = false) : (metaLines e).countP p = 0 := by
  apply List.countP_eq_zero.mpr
  intro l hl
  obtain ⟨k, v, rfl⟩ := mem_metaLines_shape hl
  simp [hp k v]

theorem countP_authorOpt_one (e : Entry) :
    (authorOptLines e).countP isAuthorLn =
      (if (formatAuthors (getField e ("author".toList))).isSome then 1 else 0) := by
  rw [authorOptLines]
  cases ha : formatAuthors (getField e ("author".toList)) with
  | none => simp
  | some a => simp [List.countP_cons, isAuthorLn_authorLine]

theorem countP_dateOpt_one (dopt : Option Str) :
    (dateOptLines dopt).countP isDateLn = (if dopt.isSome then 1 else 0) := by
  cases dopt with
  | none => simp [dateOptLines]
  | some d => simp [dateOptLines, List.countP_cons, isDateLn_dateLine]

theorem filter_metaLines_self (e : Entry) :
    (metaLines e).filter isMetaLn = metaLines e := by
  apply List.filter_eq_self.mpr
  intro l hl
  obtain ⟨k, v, rfl⟩ := mem_metaLines_shape hl
  simp [isMetaLn_metaLine]

/-- C6: for every record whose field names contain no newline and whose
document synthesis succeeds, the line structure of the body is exactly as
specified: the first line is the title line (cleaned title or
`"Untitled"`), the second is the constant taxonomy line, there is exactly
one of each, an author line appears iff `format_authors` is non-`None`, a
date line iff `format_date` is non-`None`, the metadata lines are
precisely the projected pairs in the record's original field order, and
the body ends with exactly one empty line after the last content line. -/
theorem c6_document_structure (e : Entry) (hk : ∀ p ∈ e, '\n' ∉ p.1)
    (body : Str) (h : buildTreeContent e = .ok body) :
    (body.splitOn '\n').head? = some (titleLine e) ∧
    (body.splitOn '\n').countP isTitleLn = 1 ∧
    (body.splitOn '\n')[1]? = some taxonLine ∧
    (body.splitOn '\n').countP isTaxonLn = 1 ∧
    (body.splitOn '\n').countP isAuthorLn =
      (if (formatAuthors (getField e ("author".toList))).isSome then 1 else 0) ∧
    (∀ dopt, formatDate e = .ok dopt →
      (body.splitOn '\n').countP isDateLn = (if dopt.isSome then 1 else 0)) ∧
    (body.splitOn '\n').filter isMetaLn = metaLines e ∧
    (body.splitOn '\n').getLast? = some [] ∧
    (∀ l ∈ (body.splitOn '\n').dropLast, l ≠ []) := by
  rw [buildTreeContent] at h
  cases hb : buildLines e with
  | error u => rw [hb] at h; exact absurd h (by simp)
  | ok ls0 =>
    rw [hb] at h
    simp only [Except.ok.injEq] at h
    subst h
    have hdok : ∃ dopt, formatDate e = .ok dopt := by
      rw [buildLines] at hb
      cases hfd : formatDate e with
      | error u => rw [hfd] at hb; exact absurd hb (by simp)
      | ok dv => exact ⟨dv, rfl⟩
    obtain ⟨dopt, hd⟩ := hdok
    have hnorm := buildLines_normal hd
    rw [hb] at hnorm
    simp only [Except.ok.injEq] at hnorm
    subst hnorm
    have hsplit := List.splitOn_intercalate
      ([titleLine e, taxonLine] ++ authorOptLines e ++ dateOptLines dopt ++
        metaLines e ++ [[]]) '\n' (lines_no_newline hk hd) (by simp)
    rw [hsplit]
    have htx : isTitleLn taxonLine = false := by decide
    have htn : isTitleLn ([] : Str) = false := by decide
    have hxt : isTaxonLn taxonLine = true := by decide
    have hxn : isTaxonLn ([] : Str) = false := by decide
    have han : isAuthorLn ([] : Str) = false := by decide
    have hax : isAuthorLn taxonLine = false := by decide
    have hdn : isDateLn ([] : Str) = false := by decide
    have hdx : isDateLn taxonLine = false := by decide
    have hmn : isMetaLn ([] : Str) = false := by decide
    have hmx : isMetaLn taxonLine = false := by decide
    refine ⟨?_, ?_, ?_, ?_, ?_, ?_, ?_, ?_, ?_⟩
    · simp
    · rw [List.countP_append, List.countP_append, List.countP_append, List.countP_append]
      rw [countP_authorOpt_zero isTitleLn_authorLine]
      rw [countP_dateOpt_zero isTitleLn_dateLine]
      rw [countP_metaLines_zero isTitleLn_metaLine]
      simp [List.countP_cons, isTitleLn_titleLine e, htx, htn]
    · simp
    · rw [List.countP_append, List.countP_append, List.countP_append, List.countP_append]
      rw [countP_authorOpt_zero isTaxonLn_authorLine]
      rw [countP_dateOpt_zero isTaxonLn_dateLine]
      rw [countP_metaLines_zero isTaxonLn_metaLine]
      simp [List.countP_cons, isTaxonLn_titleLine e, hxt, hxn]
    · rw [List.countP_append, List.countP_append, List.countP_append, List.countP_append]
      rw [countP_dateOpt_zero isAuthorLn_dateLine]
      rw [countP_metaLines_zero isAuthorLn_metaLine]
      rw [countP_authorOpt_one]
      simp [List.countP_cons, isAuthorLn_titleLine e, hax, han]
    · intro dopt2 hd2
      rw [hd] at hd2
      simp only [Except.ok.injEq] at hd2
      subst hd2
      rw [List.countP_append, List.countP_append, List.countP_append, List.countP_append]
      rw [countP_authorOpt_zero isDateLn_authorLine]
      rw [countP_metaLines_zero isDateLn_metaLine]
      rw [countP_dateOpt_one]
      simp [List.countP_cons, isDateLn_titleLine e, hdx, hdn]
    · rw [List.filter_append, List.filter_append, List.filter_append, List.filter_append]
      rw [filter_metaLines_self]
      have hfA : (authorOptLines e).filter isMetaLn = [] := by
        apply List.filter_eq_nil_iff.mpr
        intro l hl
        obtain ⟨a, _, rfl⟩ := mem_authorOptLines hl
        simp [isMetaLn_authorLine]
      have hfD : (dateOptLines dopt).filter isMetaLn = [] := by
        apply List.filter_eq_nil_iff.mpr
        intro l hl
        obtain ⟨d, _, rfl⟩ := mem_dateOptLines hl
        simp [isMetaLn_dateLine]
      rw [hfA, hfD]
      simp [isMetaLn_titleLine e, hmx, hmn]
    · exact List.getLast?_concat _
    · rw [List.dropLast_concat]
      intro l hl
      rcases List.mem_append.mp hl with h1 | h1
      · rcases List.mem_append.mp h1 with h2 | h2
        · rcases List.mem_append.mp h2 with h3 | h3
          · rcases List.mem_cons.mp h3 with rfl | h4
            · simp [titleLine]
            · rcases List.mem_singleton.mp h4 with rfl
              decide
          · obtain ⟨a, _, rfl⟩ := mem_authorOptLines h3
            simp [authorLine]
        · obtain ⟨d, _, rfl⟩ := mem_dateOptLines h2
          simp [dateLine]
      · obtain ⟨k, v, rfl⟩ := mem_metaLines_shape h1
        simp [metaLine]

/- ------------------------------------------------------------------ -/
/- The batch conversion loop                                           -/
/- ------------------------------------------------------------------ -/

theorem runConvert_append {outputDir : Str} {ow : Bool} {fs fs1 : Fs}
    {l1 l2 : List Entry} {ps1 : List Str}
    (h : runConvert outputDir ow fs l1 = .ok (fs1, ps1)) :
    runConvert outputDir ow fs (l1 ++ l2) =
      match runConvert outputDir ow fs1 l2 with
      | .error err => .error err
      | .ok (fs2, ps2) => .ok (fs2, ps1 ++ ps2) := by
  induction l1 generalizing fs ps1 with
  | nil =>
    rw [runConvert] at h
    simp only [Except.ok.injEq, Prod.mk.injEq] at h
    obtain ⟨rfl, rfl⟩ := h
    rw [List.nil_append]
    cases runConvert outputDir ow fs l2 with
    | error err => rfl
    | ok fp => obtain ⟨f2, p2⟩ := fp; rfl
  | cons a l1 ih =>
    rw [runConvert] at h
    by_cases hex : ((lookupPath fs (targetOf outputDir a)).isSome && !ow) = true
    · rw [if_pos hex] at h; exact absurd h (by simp)
    · rw [if_neg hex] at h
      cases hbt : buildTreeContent a with
      | error u => rw [hbt] at h; exact absurd h (by simp)
      | ok body =>
        rw [hbt] at h
        dsimp only at h
        cases hrec : runConvert outputDir ow
            (writePath fs (targetOf outputDir a) body) l1 with
        | error err => rw [hrec] at h; exact absurd h (by simp)
        | ok fp =>
          obtain ⟨fsr, psr⟩ := fp
          rw [hrec] at h
          simp only [Except.ok.injEq, Prod.mk.injEq] at h
          obtain ⟨h1, h2⟩ := h
          subst h1
          rw [List.cons_append, runConvert, if_neg hex, hbt]
          dsimp only
          rw [ih hrec]
          cases runConvert outputDir ow fsr l2 with
          | error err => rfl
          | ok fp2 =>
            obtain ⟨f2, p2s⟩ := fp2
            simp [← h2]

theorem runConvert_false_to_true {outputDir : Str} {fs fs1 : Fs}
    {l : List Entry} {ps1 : List Str}
    (h : runConvert outputDir false fs l = .ok (fs1, ps1)) :
    runConvert outputDir true fs l = .ok (fs1, ps1) := by
  induction l generalizing fs ps1 with
  | nil => rw [runConvert] at h ⊢; exact h
  | cons a l ih =>
    rw [runConvert] at h
    by_cases hex : ((lookupPath fs (targetOf outputDir a)).isSome && !false) = true
    · rw [if_pos hex] at h; exact absurd h (by simp)
    · rw [if_neg hex] at h
      rw [runConvert, if_neg (by simp)]
      cases hbt : buildTreeContent a with
      | error u => rw [hbt] at h; exact absurd h (by simp)
      | ok body =>
        rw [hbt] at h
        dsimp only at h
        dsimp only
        cases hrec : runConvert outputDir false
            (writePath fs (targetOf outputDir a) body) l with
        | error err => rw [hrec] at h; exact absurd h (by simp)
        | ok fp =>
          obtain ⟨fsr, psr⟩ := fp
          rw [hrec] at h
          simp only [Except.ok.injEq, Prod.mk.injEq] at h
          obtain ⟨h1, h2⟩ := h
          subst h1
          rw [ih hrec]
          simp [h2]

theorem lookupPath_write_mono {fs : Fs} {p t c : Str}
    (hp : (lookupPath fs p).isSome = true) :
    (lookupPath (writePath fs t c) p).isSome = true := by
  rw [writePath, lookupPath]
  by_cases ht : t = p
  · rw [if_pos ht]; rfl
  · rw [if_neg ht]; exact hp

theorem runConvert_mono {outputDir : Str} {ow : Bool} {fs fs1 : Fs}
    {l : List Entry} {ps1 : List Str} {p : Str}
    (hp : (lookupPath fs p).isSome = true)
    (h : runConvert outputDir ow fs l = .ok (fs1, ps1)) :
    (lookupPath fs1 p).isSome = true := by
  induction l generalizing fs ps1 with
  | nil =>
    rw [runConvert] at h
    simp only [Except.ok.injEq, Prod.mk.injEq] at h
    obtain ⟨rfl, rfl⟩ := h
    exact hp
  | cons a l ih =>
    rw [runConvert] at h
    by_cases hex : ((lookupPath fs (targetOf outputDir a)).isSome && !ow) = true
    · rw [if_pos hex] at h; exact absurd h (by simp)
    · rw [if_neg hex] at h
      cases hbt : buildTreeContent a with
      | error u => rw [hbt] at h; exact absurd h (by simp)
      | ok body =>
        rw [hbt] at h
        dsimp only at h
        cases hrec : runConvert outputDir ow
            (writePath fs (targetOf outputDir a) body) l with
        | error err => rw [hrec] at h; exact absurd h (by simp)
        | ok fp =>
          obtain ⟨fsr, psr⟩ := fp
          rw [hrec] at h
          simp only [Except.ok.injEq, Prod.mk.injEq] at h
          obtain ⟨h1, h2⟩ := h
          subst h1
          exact ih (lookupPath_write_mono hp) hrec

theorem runConvert_paths_exist {outputDir : Str} {ow : Bool} {fs fs1 : Fs}
    {l : List Entry} {ps1 : List Str}
    (h : runConvert outputDir ow fs l = .ok (fs1, ps1)) :
    ∀ p ∈ ps1, (lookupPath fs1 p).isSome = true := by
  induction l generalizing fs ps1 with
  | nil =>
    rw [runConvert] at h
    simp only [Except.ok.injEq, Prod.mk.injEq] at h
    obtain ⟨rfl, rfl⟩ := h
    intro p hp
    simp at hp
  | cons a l ih =>
    rw [runConvert] at h
    by_cases hex : ((lookupPath fs (targetOf outputDir a)).isSome && !ow) = true
    · rw [if_pos hex] at h; exact absurd h (by simp)
    · rw [if_neg hex] at h
      cases hbt : buildTreeContent a with
      | error u => rw [hbt] at h; exact absurd h (by simp)
      | ok body =>
        rw [hbt] at h
        dsimp only at h
        cases hrec : runConvert outputDir ow
            (writePath fs (targetOf outputDir a) body) l with
        | error err => rw [hrec] at h; exact absurd h (by simp)
        | ok fp =>
          obtain ⟨fsr, psr⟩ := fp
          rw [hrec] at h
          simp only [Except.ok.injEq, Prod.mk.injEq] at h
          obtain ⟨h1, h2⟩ := h
          subst h1
          intro p hp
          rw [← h2] at hp
          rcases List.mem_cons.mp hp with rfl | hp2
          · exact runConvert_mono
              (by rw [writePath, lookupPath, if_pos rfl]; rfl) hrec
          · exact ih hrec p hp2

/-- C3: in a `convert` run with overwrite disabled, a record whose target
path already exists at that point makes the run fail immediately with the
filesystem unchanged for that record (no new or replacement content), the
files created for earlier records remaining in place with no rollback;
with overwrite enabled the run proceeds and the existing file is replaced
by the newly synthesized document. -/
theorem c3_convert_overwrite_contract
    (outputDir : Str) (fs0 fs1 : Fs) (pre : List Entry) (e : Entry)
    (post : List Entry) (ps : List Str) (be : Str)
    (h1 : runConvert outputDir false fs0 pre = .ok (fs1, ps))
    (h2 : (lookupPath fs1 (targetOf outputDir e)).isSome = true)
    (h3 : buildTreeContent e = .ok be) :
    runConvert outputDir false fs0 (pre ++ e :: post) =
      .error (.existingTarget fs1) ∧
    (∀ p ∈ ps, (lookupPath fs1 p).isSome = true) ∧
    runConvert outputDir true fs0 (pre ++ [e]) =
      .ok (writePath fs1 (targetOf outputDir e) be, ps ++ [targetOf outputDir e]) ∧
    lookupPath (writePath fs1 (targetOf outputDir e) be) (targetOf outputDir e) =
      some be := by
  refine ⟨?_, runConvert_paths_exist h1, ?_, ?_⟩
  · have hrun : runConvert outputDir false fs1 (e :: post) =
        .error (.existingTarget fs1) := by
      rw [runConvert, if_pos (by simp [h2])]
    rw [runConvert_append h1, hrun]
  · have hrun2 : runConvert outputDir true fs1 [e] =
        .ok (writePath fs1 (targetOf outputDir e) be, [targetOf outputDir e]) := by
      rw [runConvert, if_neg (by simp), h3]
      dsimp only
      rw [runConvert]
    rw [runConvert_append (runConvert_false_to_true h1), hrun2]
  · rw [writePath, lookupPath, if_pos rfl]

/- ------------------------------------------------------------------ -/
/- Concrete instantiations of the conditional claim theorems           -/
/- ------------------------------------------------------------------ -/

theorem c3_convert_contract_witness :
    runConvert ("out".toList) false [] [[("ID".toList, "x".toList)]] =
      .ok ([(("out/x.tree").toList,
        ("\\title\x7bUntitled\x7d\n\\taxon\x7bReference\x7d\n\\meta\x7bID\x7d\x7bx\x7d\n").toList)],
        [("out/x.tree").toList]) ∧
    runConvert ("out".toList) false []
      ([[("ID".toList, "x".toList)]] ++ [("ID".toList, "x".toList)] :: []) =
      .error (.existingTarget [(("out/x.tree").toList,
        ("\\title\x7bUntitled\x7d\n\\taxon\x7bReference\x7d\n\\meta\x7bID\x7d\x7bx\x7d\n").toList)]) := by
  have hh1 : runConvert ("out".toList) false [] [[("ID".toList, "x".toList)]] =
      .ok ([(("out/x.tree").toList,
        ("\\title\x7bUntitled\x7d\n\\taxon\x7bReference\x7d\n\\meta\x7bID\x7d\x7bx\x7d\n").toList)],
        [("out/x.tree").toList]) := by
    simp +decide [runConvert, targetOf, citekeyOf, slugify, subNonAlnum, collapseDashes,
      stripDashes, buildTreeContent, buildLines, titleValue, titleLine, taxonLine,
      metaLine, metaPairs, skipKeys, urlFields, cleanWhitespace, flattenWs, pySplit,
      stripBraces, stripBracesLoop, pyStrip, formatAuthors, splitAnd, sepAnd,
      formatDate, getField, pyInt, escapeMetaValue, stripUrlCommand, urlMarker,
      toLowerCh, lookupPath, writePath, List.intercalate, List.intersperse]
  refine ⟨hh1, ?_⟩
  exact (c3_convert_overwrite_contract ("out".toList) []
    [(("out/x.tree").toList,
      ("\\title\x7bUntitled\x7d\n\\taxon\x7bReference\x7d\n\\meta\x7bID\x7d\x7bx\x7d\n").toList)]
    [[("ID".toList, "x".toList)]] [("ID".toList, "x".toList)] []
    [("out/x.tree").toList]
    (("\\title\x7bUntitled\x7d\n\\taxon\x7bReference\x7d\n\\meta\x7bID\x7d\x7bx\x7d\n").toList)
    hh1
    (by simp +decide [lookupPath, targetOf, citekeyOf, slugify, subNonAlnum,
      collapseDashes, stripDashes, stripBraces, stripBracesLoop, pyStrip, getField,
      toLowerCh])
    (by simp +decide [buildTreeContent, buildLines, titleValue, titleLine, taxonLine,
      metaLine, metaPairs, skipKeys, urlFields, cleanWhitespace, flattenWs, pySplit,
      stripBraces, stripBracesLoop, pyStrip, formatAuthors, splitAnd, sepAnd,
      formatDate, getField, pyInt, escapeMetaValue, stripUrlCommand, urlMarker,
      toLowerCh, List.intercalate, List.intersperse])).1

theorem c6_document_structure_witness :
    ((("\\title\x7bT\x7d\n\\taxon\x7bReference\x7d\n\\author/literal\x7bA B, C\x7d\n\\date\x7b2000-01-01\x7d\n\\meta\x7bnote\x7d\x7bx\x7d\n").toList).splitOn '\n').countP isTitleLn = 1 := by
  have h := c6_document_structure
    [("title".toList, "T".toList), ("author".toList, "A B and C".toList),
     ("year".toList, "2000".toList), ("note".toList, "x".toList)]
    (by decide)
    (("\\title\x7bT\x7d\n\\taxon\x7bReference\x7d\n\\author/literal\x7bA B, C\x7d\n\\date\x7b2000-01-01\x7d\n\\meta\x7bnote\x7d\x7bx\x7d\n").toList)
    (by simp +decide [buildTreeContent, buildLines, titleValue, titleLine, taxonLine,
      authorLine, dateLine, metaLine, metaPairs, skipKeys, urlFields, cleanWhitespace,
      flattenWs, pySplit, stripBraces, stripBracesLoop, pyStrip, formatAuthors,
      splitAnd, sepAnd, formatDate, getField, pyInt, parseMonth, assocLookup,
      monthTable, natOfDigits, fmtInt, padZeros, natToDigits, natToDigitsAux, digitCh,
      escapeMetaValue, stripUrlCommand, urlMarker, toLowerCh,
      List.intercalate, List.intersperse])
  exact h.2.1

theorem c10_percent_escaping_witness :
    countCh '%' (authorLine ("x%y".toList)) = countCh '%' ("x%y".toList) ∧
    percentEscaped ("50\\%".toList) = true := by
  have h := c10_percent_escaping_only_metadata
    [("author".toList, "x%y".toList), ("note".toList, "50%".toList)]
  refine ⟨(h.2.1 ("x%y".toList) ?_).1, h.2.2 ("note".toList) ("50\\%".toList) ?_⟩
  · simp +decide [formatAuthors, getField, cleanWhitespace, flattenWs, pySplit,
      stripBraces, stripBracesLoop, pyStrip, splitAnd, sepAnd,
      List.intercalate, List.intersperse]
  · simp +decide [metaPairs, skipKeys, urlFields, cleanWhitespace, flattenWs, pySplit,
      stripBraces, stripBracesLoop, pyStrip, stripUrlCommand, urlMarker,
      escapeMetaValue, toLowerCh, List.intercalate, List.intersperse]

end BibToTree
